import Mathlib

/-!
Verification of the "secret-burger" peer-to-peer file transfer application.

The application's core logic lives in a single React component.  This file
shallowly embeds the connection-establishment state machine, the handshake
codec (`btoa(JSON.stringify(payload))` / `JSON.parse(atob(token))`), and the
chunked transfer protocol (16384-byte frames plus a `done` control message),
and proves or refutes the specification's claims about them.

Stateful component code is embedded as explicit state passing: the React
`useState` fields become one record `AppSt`, and every event handler becomes a
function `AppSt → … → AppSt`.  Platform primitives used by the code are
embedded from their standard semantics: `btoa`/`atob` are the WHATWG
(forgiving) base64 functions on Latin-1 strings, and `JSON.stringify` /
`JSON.parse` are a JSON printer and parser over a `Json` value type.  JSON
numbers are represented as exact rationals; the printer is faithful for the
integral values the application serializes (file sizes), and the scientific
notation JavaScript uses for non-integral or astronomically large doubles is
out of scope.  The WebRTC transport and the SHA-256 password hash are opaque
collaborators per the specification, modelled respectively by a Boolean
"transport operation succeeded" parameter and by an abstract digest function
passed to the handler.
-/

/-! ### Base64 (`btoa` / `atob`) -/

/-- Character of the standard base64 alphabet at index `n` (`n < 64`). -/
def b64Char (n : Nat) : Char :=
  if n < 26 then Char.ofNat (65 + n)
  else if n < 52 then Char.ofNat (97 + (n - 26))
  else if n < 62 then Char.ofNat (48 + (n - 52))
  else if n = 62 then '+'
  else '/'

/-- Index of a character in the base64 alphabet, `none` for foreign characters. -/
def b64Val (c : Char) : Option Nat :=
  if 'A' ≤ c ∧ c ≤ 'Z' then some (c.toNat - 65)
  else if 'a' ≤ c ∧ c ≤ 'z' then some (c.toNat - 97 + 26)
  else if '0' ≤ c ∧ c ≤ '9' then some (c.toNat - 48 + 52)
  else if c = '+' then some 62
  else if c = '/' then some 63
  else none

/-- Base64-encode a byte list, three bytes at a time, with `=` padding. -/
def btoaBytes : List Nat → List Char
  | [] => []
  | [a] => [b64Char (a / 4), b64Char (a % 4 * 16), '=', '=']
  | [a, b] => [b64Char (a / 4), b64Char (a % 4 * 16 + b / 16), b64Char (b % 16 * 4), '=']
  | a :: b :: c :: rest =>
      b64Char (a / 4) :: b64Char (a % 4 * 16 + b / 16) :: b64Char (b % 16 * 4 + c / 64) ::
        b64Char (c % 64) :: btoaBytes rest

/-- The `btoa` DOM function: base64 of a Latin-1 string; throws (here `none`)
when any code point exceeds 255. -/
def btoa (s : String) : Option String :=
  if s.data.all (fun c => c.toNat ≤ 255) then
    some (String.mk (btoaBytes (s.data.map Char.toNat)))
  else none

/-- ASCII whitespace stripped by forgiving base64 decoding. -/
def isB64Ws (c : Char) : Bool :=
  c = '\x09' ∨ c = '\x0a' ∨ c = '\x0c' ∨ c = '\x0d' ∨ c = ' '

/-- Remove up to two trailing `=` padding characters. -/
def stripPad (cs : List Char) : List Char :=
  match cs.reverse with
  | e1 :: e2 :: r =>
    if e1 = '=' then (if e2 = '=' then r.reverse else (e2 :: r).reverse) else cs
  | e1 :: r => if e1 = '=' then r.reverse else cs
  | [] => cs

/-- Decode a padding-free base64 character sequence into bytes.  The final
group of two or three characters yields one or two bytes; a final group of a
single character is a failure. -/
def atobCore : List Char → Option (List Nat)
  | [] => some []
  | [_] => none
  | [a, b] =>
    match b64Val a, b64Val b with
    | some va, some vb => some [va * 4 + vb / 16]
    | _, _ => none
  | [a, b, c] =>
    match b64Val a, b64Val b, b64Val c with
    | some va, some vb, some vc => some [va * 4 + vb / 16, vb % 16 * 16 + vc / 4]
    | _, _, _ => none
  | a :: b :: c :: d :: rest =>
    match b64Val a, b64Val b, b64Val c, b64Val d, atobCore rest with
    | some va, some vb, some vc, some vd, some tail =>
        some ((va * 4 + vb / 16) :: (vb % 16 * 16 + vc / 4) :: (vc % 4 * 64 + vd) :: tail)
    | _, _, _, _, _ => none

/-- The `atob` DOM function: WHATWG forgiving base64 decoding to a byte
string; `none` models the thrown `InvalidCharacterError`. -/
def atob (s : String) : Option String :=
  let t := s.data.filter (fun c => !(isB64Ws c))
  let u := if t.length % 4 = 0 then stripPad t else t
  if u.length % 4 = 1 then none
  else (atobCore u).map (fun bs => String.mk (bs.map Char.ofNat))

/-- Base64 encoding of a byte list without the trailing padding characters. -/
def unpadded : List Nat → List Char
  | [] => []
  | [a] => [b64Char (a / 4), b64Char (a % 4 * 16)]
  | [a, b] => [b64Char (a / 4), b64Char (a % 4 * 16 + b / 16), b64Char (b % 16 * 4)]
  | a :: b :: c :: rest =>
      b64Char (a / 4) :: b64Char (a % 4 * 16 + b / 16) :: b64Char (b % 16 * 4 + c / 64) ::
        b64Char (c % 64) :: unpadded rest

theorem b64Val_b64Char : ∀ n < 64, b64Val (b64Char n) = some n := by decide

theorem b64Char_ne_eq : ∀ n < 64, b64Char n ≠ '=' := by decide

theorem b64Char_not_ws : ∀ n < 64, isB64Ws (b64Char n) = false := by decide

theorem eq_not_ws : isB64Ws '=' = false := by decide

theorem btoaBytes_no_ws (bs : List Nat) (h : ∀ x ∈ bs, x ≤ 255) :
    (btoaBytes bs).filter (fun c => !(isB64Ws c)) = btoaBytes bs := by
  induction bs using btoaBytes.induct with
  | case1 => rfl
  | case2 a =>
      have ha : a ≤ 255 := h a (by simp)
      simp [btoaBytes, List.filter_cons, b64Char_not_ws (a / 4) (by omega),
        b64Char_not_ws (a % 4 * 16) (by omega), eq_not_ws]
  | case3 a b =>
      have ha : a ≤ 255 := h a (by simp)
      have hb : b ≤ 255 := h b (by simp)
      simp [btoaBytes, List.filter_cons, b64Char_not_ws (a / 4) (by omega),
        b64Char_not_ws (a % 4 * 16 + b / 16) (by omega),
        b64Char_not_ws (b % 16 * 4) (by omega), eq_not_ws]
  | case4 a b c rest ih =>
      have ha : a ≤ 255 := h a (by simp)
      have hb : b ≤ 255 := h b (by simp)
      have hc : c ≤ 255 := h c (by simp)
      have hrest : ∀ x ∈ rest, x ≤ 255 := fun x hx => h x (by simp [hx])
      simp [btoaBytes, List.filter_cons, b64Char_not_ws (a / 4) (by omega),
        b64Char_not_ws (a % 4 * 16 + b / 16) (by omega),
        b64Char_not_ws (b % 16 * 4 + c / 64) (by omega),
        b64Char_not_ws (c % 64) (by omega), ih hrest]

theorem btoaBytes_len_mod (bs : List Nat) : (btoaBytes bs).length % 4 = 0 := by
  induction bs using btoaBytes.induct with
  | case1 => rfl
  | case2 a => simp [btoaBytes]
  | case3 a b => simp [btoaBytes]
  | case4 a b c rest ih => simp [btoaBytes]; omega

theorem stripPad_append (l t : List Char) (h : 2 ≤ t.length) :
    stripPad (l ++ t) = l ++ stripPad t := by
  obtain ⟨e1, e2, tr, hrev⟩ : ∃ e1 e2 tr, t.reverse = e1 :: e2 :: tr := by
    match ht : t.reverse with
    | [] =>
        rw [List.reverse_eq_nil_iff] at ht
        subst ht
        simp at h
    | [x] =>
        have hl : t.length = 1 := by
          have := congrArg List.length ht
          simpa using this
        exact absurd h (by omega)
    | x :: y :: r => exact ⟨x, y, r, rfl⟩
  have hta : (l ++ t).reverse = e1 :: e2 :: (tr ++ l.reverse) := by
    simp [List.reverse_append, hrev]
  have ht2 : t = (e1 :: e2 :: tr).reverse := by
    rw [← hrev, List.reverse_reverse]
  unfold stripPad
  rw [hta, hrev]
  by_cases h1 : e1 = '='
  · by_cases h2 : e2 = '='
    · simp [h1, h2, ht2]
    · simp [h1, h2, ht2]
  · simp [h1]

theorem stripPad_btoaBytes (bs : List Nat) (h : ∀ x ∈ bs, x ≤ 255) :
    stripPad (btoaBytes bs) = unpadded bs := by
  induction bs using btoaBytes.induct with
  | case1 => rfl
  | case2 a => rfl
  | case3 a b =>
      have hb : b ≤ 255 := h b (by simp)
      show stripPad [b64Char (a / 4), b64Char (a % 4 * 16 + b / 16), b64Char (b % 16 * 4), '='] = _
      unfold stripPad
      simp [b64Char_ne_eq (b % 16 * 4) (by omega), unpadded]
  | case4 a b c rest ih =>
      have hc : c ≤ 255 := h c (by simp)
      have hrest : ∀ x ∈ rest, x ≤ 255 := fun x hx => h x (by simp [hx])
      have hb4 : btoaBytes (a :: b :: c :: rest) =
          [b64Char (a / 4), b64Char (a % 4 * 16 + b / 16), b64Char (b % 16 * 4 + c / 64),
            b64Char (c % 64)] ++ btoaBytes rest := by
        simp [btoaBytes]
      have hu4 : unpadded (a :: b :: c :: rest) =
          [b64Char (a / 4), b64Char (a % 4 * 16 + b / 16), b64Char (b % 16 * 4 + c / 64),
            b64Char (c % 64)] ++ unpadded rest := by
        simp [unpadded]
      rw [hb4, hu4]
      cases rest with
      | nil =>
          unfold stripPad
          simp [btoaBytes, unpadded, b64Char_ne_eq (c % 64) (by omega)]
      | cons x xs =>
          have h2 : 2 ≤ (btoaBytes (x :: xs)).length := by
            cases xs with
            | nil => simp [btoaBytes]
            | cons y ys =>
                cases ys with
                | nil => simp [btoaBytes]
                | cons z zs => simp [btoaBytes]
          rw [stripPad_append _ _ h2, ih hrest]

theorem atobCore_unpadded (bs : List Nat) (h : ∀ x ∈ bs, x ≤ 255) :
    atobCore (unpadded bs) = some bs := by
  induction bs using btoaBytes.induct with
  | case1 => rfl
  | case2 a =>
      have ha : a ≤ 255 := h a (by simp)
      show atobCore [b64Char (a / 4), b64Char (a % 4 * 16)] = some [a]
      simp only [atobCore, b64Val_b64Char (a / 4) (by omega),
        b64Val_b64Char (a % 4 * 16) (by omega)]
      have hval : a / 4 * 4 + a % 4 * 16 / 16 = a := by omega
      rw [hval]
  | case3 a b =>
      have ha : a ≤ 255 := h a (by simp)
      have hb : b ≤ 255 := h b (by simp)
      show atobCore [b64Char (a / 4), b64Char (a % 4 * 16 + b / 16), b64Char (b % 16 * 4)] =
        some [a, b]
      simp only [atobCore, b64Val_b64Char (a / 4) (by omega),
        b64Val_b64Char (a % 4 * 16 + b / 16) (by omega),
        b64Val_b64Char (b % 16 * 4) (by omega)]
      have h1 : a / 4 * 4 + (a % 4 * 16 + b / 16) / 16 = a := by omega
      have h2 : (a % 4 * 16 + b / 16) % 16 * 16 + b % 16 * 4 / 4 = b := by omega
      rw [h1, h2]
  | case4 a b c rest ih =>
      have ha : a ≤ 255 := h a (by simp)
      have hb : b ≤ 255 := h b (by simp)
      have hc : c ≤ 255 := h c (by simp)
      have hrest : ∀ x ∈ rest, x ≤ 255 := fun x hx => h x (by simp [hx])
      have hu4 : unpadded (a :: b :: c :: rest) =
          b64Char (a / 4) :: b64Char (a % 4 * 16 + b / 16) ::
            b64Char (b % 16 * 4 + c / 64) :: b64Char (c % 64) :: unpadded rest := by
        simp [unpadded]
      rw [hu4]
      show atobCore (_ :: _ :: _ :: _ :: unpadded rest) = _
      simp only [atobCore, b64Val_b64Char (a / 4) (by omega),
        b64Val_b64Char (a % 4 * 16 + b / 16) (by omega),
        b64Val_b64Char (b % 16 * 4 + c / 64) (by omega),
        b64Val_b64Char (c % 64) (by omega), ih hrest]
      have h1 : a / 4 * 4 + (a % 4 * 16 + b / 16) / 16 = a := by omega
      have h2 : (a % 4 * 16 + b / 16) % 16 * 16 + (b % 16 * 4 + c / 64) / 4 = b := by omega
      have h3 : (b % 16 * 4 + c / 64) % 4 * 64 + c % 64 = c := by omega
      rw [h1, h2, h3]

theorem unpadded_len_not_one (bs : List Nat) : (unpadded bs).length % 4 ≠ 1 := by
  induction bs using btoaBytes.induct with
  | case1 => simp [unpadded]
  | case2 a => simp [unpadded]
  | case3 a b => simp [unpadded]
  | case4 a b c rest ih => simp [unpadded] at *; omega

/-- Round-trip of the base64 transform: `atob` inverts `btoa` on every string
`btoa` accepts. -/
theorem atob_btoa (s t : String) (h : btoa s = some t) : atob t = some s := by
  have hall : s.data.all (fun c => c.toNat ≤ 255) = true := by
    by_contra hc
    simp [btoa, hc] at h
  have ht : t = String.mk (btoaBytes (s.data.map Char.toNat)) := by
    simp [btoa, hall] at h
    exact h.symm
  subst ht
  have hbound : ∀ x ∈ s.data.map Char.toNat, x ≤ 255 := by
    intro x hx
    simp only [List.mem_map] at hx
    obtain ⟨c, hc, rfl⟩ := hx
    simp only [List.all_eq_true] at hall
    simpa using hall c hc
  show atob (String.mk (btoaBytes (s.data.map Char.toNat))) = some s
  unfold atob
  have hdata : (String.mk (btoaBytes (s.data.map Char.toNat))).data =
      btoaBytes (s.data.map Char.toNat) := rfl
  simp only [hdata]
  rw [btoaBytes_no_ws _ hbound, if_pos (btoaBytes_len_mod _), stripPad_btoaBytes _ hbound]
  rw [if_neg (unpadded_len_not_one _), atobCore_unpadded _ hbound]
  show some (String.mk ((s.data.map Char.toNat).map Char.ofNat)) = some s
  congr 1
  rw [List.map_map]
  have hmapid : s.data.map (Char.ofNat ∘ Char.toNat) = s.data.map id := by
    apply List.map_congr_left
    intro c _
    exact Char.ofNat_toNat c
  rw [hmapid, List.map_id]

/-! ### JSON values -/

/-- JSON values as produced by `JSON.parse`.  Numbers are exact rationals;
this coincides with JavaScript doubles on every value the application
manipulates (integral file sizes). -/
inductive Json where
  | null
  | jbool (b : Bool)
  | num (q : ℚ)
  | str (s : String)
  | arr (elems : List Json)
  | obj (entries : List (String × Json))

/-- Property access `j[k]` on a parsed JSON value: a field of an object,
`none` (JavaScript `undefined`) otherwise.  Parsed objects have unique keys,
so plain lookup agrees with JavaScript. -/
def jget (j : Json) (k : String) : Option Json :=
  match j with
  | .obj kvs => kvs.lookup k
  | _ => none

/-- JavaScript truthiness of a possibly-undefined JSON value, as used by
`if (payload.passwordHash)`. -/
def jTruthy (v : Option Json) : Bool :=
  match v with
  | none => false
  | some .null => false
  | some (.jbool b) => b
  | some (.num q) => q ≠ 0
  | some (.str s) => !s.isEmpty
  | some (.arr _) => true
  | some (.obj _) => true

/-! ### JSON printer (`JSON.stringify`) -/

/-- Lowercase hexadecimal digit, as in the `\u00XX` escapes `JSON.stringify`
emits for control characters. -/
def hexDigitChar (n : Nat) : Char :=
  if n < 10 then Char.ofNat (48 + n) else Char.ofNat (87 + n)

/-- The escape `JSON.stringify` applies to one character of a string:
quote and backslash get two-character escapes, the five named control
characters get their short escapes, other control characters get `\u00XX`,
and everything else is emitted verbatim. -/
def escChar (c : Char) : List Char :=
  if c = '"' then ['\\', '"']
  else if c = '\\' then ['\\', '\\']
  else if c = '\x08' then ['\\', 'b']
  else if c = '\x0c' then ['\\', 'f']
  else if c = '\x0a' then ['\\', 'n']
  else if c = '\x0d' then ['\\', 'r']
  else if c = '\x09' then ['\\', 't']
  else if c.toNat < 32 then
    ['\\', 'u', '0', '0', hexDigitChar (c.toNat / 16), hexDigitChar (c.toNat % 16)]
  else [c]

def escChars (cs : List Char) : List Char := (cs.map escChar).flatten

/-- A JSON string literal: quoted and escaped. -/
def quoteStr (s : String) : List Char := '"' :: (escChars s.data ++ ['"'])

/-- Decimal digit printer: emit the digits of `n`, most significant first,
in front of `acc`.  Fuel decreases once per digit, so `n + 1` suffices. -/
def natCharsGo : Nat → Nat → List Char → List Char
  | 0, _, acc => acc
  | fuel + 1, n, acc =>
    if n < 10 then Char.ofNat (48 + n) :: acc
    else natCharsGo fuel (n / 10) (Char.ofNat (48 + n % 10) :: acc)

/-- Decimal digits of a natural number, most significant first. -/
def natChars (n : Nat) : List Char := natCharsGo (n + 1) n []

def intChars (i : ℤ) : List Char :=
  if i < 0 then '-' :: natChars i.natAbs else natChars i.toNat

/-- JSON number printing.  Faithful to JavaScript for integral values
(`q.den = 1`, magnitude below `1e21`) — the only numbers the application
serializes; the decimal/exponent notation for other doubles is out of scope. -/
def numChars (q : ℚ) : List Char := intChars q.num

mutual
/-- The characters `JSON.stringify` produces for a JSON value. -/
def jChars : Json → List Char
  | .null => ['n', 'u', 'l', 'l']
  | .jbool true => ['t', 'r', 'u', 'e']
  | .jbool false => ['f', 'a', 'l', 's', 'e']
  | .num q => numChars q
  | .str s => quoteStr s
  | .arr es => '[' :: (jCharsArr es ++ [']'])
  | .obj kvs => '\x7b' :: (jCharsObj kvs ++ ['\x7d'])
def jCharsArr : List Json → List Char
  | [] => []
  | [v] => jChars v
  | v :: vs => jChars v ++ ',' :: jCharsArr vs
def jCharsObj : List (String × Json) → List Char
  | [] => []
  | [(k, v)] => quoteStr k ++ ':' :: jChars v
  | (k, v) :: kvs => quoteStr k ++ ':' :: jChars v ++ ',' :: jCharsObj kvs
end

/-- `JSON.stringify` as a string-valued function. -/
def jsonStringify (v : Json) : String := String.mk (jChars v)

mutual
/-- Canonical JSON values: integral numbers and objects with distinct keys.
Every value the application serializes is canonical; the round-trip theorem
is stated for canonical values. -/
def canonJ : Json → Bool
  | .null => true
  | .jbool _ => true
  | .num q => q.den = 1
  | .str _ => true
  | .arr es => canonArr es
  | .obj kvs => ((kvs.map Prod.fst).Nodup : Prop) && canonObj kvs
def canonArr : List Json → Bool
  | [] => true
  | v :: vs => canonJ v && canonArr vs
def canonObj : List (String × Json) → Bool
  | [] => true
  | (_, v) :: kvs => canonJ v && canonObj kvs
end

/-! ### JSON parser (`JSON.parse`) -/

/-- Whitespace skipped between JSON tokens. -/
def isWsJ (c : Char) : Bool := c = ' ' ∨ c = '\x09' ∨ c = '\x0a' ∨ c = '\x0d'

def skipWsL : List Char → List Char
  | [] => []
  | c :: cs => if isWsJ c then skipWsL cs else c :: cs

def isDigitC (c : Char) : Bool := '0' ≤ c ∧ c ≤ '9'

def hexVal (c : Char) : Option Nat :=
  if '0' ≤ c ∧ c ≤ '9' then some (c.toNat - 48)
  else if 'a' ≤ c ∧ c ≤ 'f' then some (c.toNat - 97 + 10)
  else if 'A' ≤ c ∧ c ≤ 'F' then some (c.toNat - 65 + 10)
  else none

def hex4 (a b c d : Char) : Option Nat :=
  match hexVal a, hexVal b, hexVal c, hexVal d with
  | some va, some vb, some vc, some vd => some (((va * 16 + vb) * 16 + vc) * 16 + vd)
  | _, _, _, _ => none


def consFst (c : Char) : Option (List Char × List Char) → Option (List Char × List Char)
  | none => none
  | some (s, r) => some (c :: s, r)

/-- Decode one escape sequence (the part after the backslash), returning the
decoded character and the remaining input.  Surrogate `\uXXXX` escapes are
paired into one code point; a lone surrogate escape (legal in JavaScript
strings but not representable as a Unicode scalar value) is rejected. -/
def unescape1 : List Char → Option (Char × List Char)
  | [] => none
  | e :: cs =>
    if e = '"' then some ('"', cs)
    else if e = '\\' then some ('\\', cs)
    else if e = '/' then some ('/', cs)
    else if e = 'b' then some ('\x08', cs)
    else if e = 'f' then some ('\x0c', cs)
    else if e = 'n' then some ('\x0a', cs)
    else if e = 'r' then some ('\x0d', cs)
    else if e = 't' then some ('\x09', cs)
    else if e = 'u' then
      match cs with
      | a :: b :: c2 :: d :: cs3 =>
        match hex4 a b c2 d with
        | none => none
        | some n =>
          if n < 0xd800 ∨ 0xdfff < n then some (Char.ofNat n, cs3)
          else if n < 0xdc00 then
            match cs3 with
            | b1 :: b2 :: a2 :: b3 :: c3 :: d2 :: cs4 =>
              if b1 = '\\' ∧ b2 = 'u' then
                match hex4 a2 b3 c3 d2 with
                | none => none
                | some m =>
                  if 0xdc00 ≤ m ∧ m ≤ 0xdfff then
                    some (Char.ofNat (0x10000 + (n - 0xd800) * 0x400 + (m - 0xdc00)), cs4)
                  else none
              else none
            | _ => none
          else none
      | _ => none
    else none

/-- Parse the body of a JSON string literal (after the opening quote) up to
and including the closing quote, decoding escapes.  Fuel decreases at every
consumed character, so any fuel exceeding the input length suffices. -/
def pStrGo : Nat → List Char → Option (List Char × List Char)
  | 0, _ => none
  | f + 1, input =>
    match input with
    | [] => none
    | c :: cs =>
      if c = '"' then some ([], cs)
      else if c = '\\' then
        match unescape1 cs with
        | some (d, cs2) => consFst d (pStrGo f cs2)
        | none => none
      else if c.toNat < 32 then none
      else consFst c (pStrGo f cs)

def pString (input : List Char) : Option (List Char × List Char) :=
  pStrGo (input.length + 1) input

/-- Numeric value of a run of decimal digit characters. -/
def digitsVal (ds : List Char) : Nat := ds.foldl (fun a c => a * 10 + (c.toNat - 48)) 0

/-- Integer part of a JSON number: `0`, or a nonzero digit followed by
digits (leading zeros are rejected, as by `JSON.parse`). -/
def pIntPart : List Char → Option (Nat × List Char)
  | [] => none
  | c :: cs =>
    if c = '0' then some (0, cs)
    else if '1' ≤ c ∧ c ≤ '9' then
      some (digitsVal (c :: cs.takeWhile isDigitC), cs.dropWhile isDigitC)
    else none

/-- Optional fraction part of a JSON number, as an exact rational. -/
def pFrac (input : List Char) : Option (ℚ × List Char) :=
  match input with
  | c :: cs =>
    if c = '.' then
      let ds := cs.takeWhile isDigitC
      if ds.isEmpty then none
      else some ((digitsVal ds : ℚ) / (10 : ℚ) ^ ds.length, cs.dropWhile isDigitC)
    else some (0, input)
  | [] => some (0, [])

/-- Optional exponent part of a JSON number. -/
def pExp (input : List Char) : Option (ℤ × List Char) :=
  match input with
  | c :: cs =>
    if c = 'e' ∨ c = 'E' then
      let signAndRest : Bool × List Char :=
        match cs with
        | s :: cs2 =>
          if s = '-' then (true, cs2) else if s = '+' then (false, cs2) else (false, cs)
        | [] => (false, [])
      let ds := signAndRest.2.takeWhile isDigitC
      if ds.isEmpty then none
      else
        some ((if signAndRest.1 then -(digitsVal ds : ℤ) else (digitsVal ds : ℤ)),
          signAndRest.2.dropWhile isDigitC)
    else some (0, input)
  | [] => some (0, [])

/-- Parse a JSON number token into an exact rational value. -/
def pNum (input : List Char) : Option (Json × List Char) :=
  let signAndRest : Bool × List Char :=
    match input with
    | c :: cs2 => if c = '-' then (true, cs2) else (false, input)
    | [] => (false, [])
  match pIntPart signAndRest.2 with
  | none => none
  | some (i, r1) =>
    match pFrac r1 with
    | none => none
    | some (fq, r2) =>
      match pExp r2 with
      | none => none
      | some (e, r3) =>
        some (.num ((if signAndRest.1 then -((i : ℚ) + fq) else ((i : ℚ) + fq)) *
          (10 : ℚ) ^ e), r3)

/-- Record a parsed object member, overwriting the value of an existing key
in place, as JavaScript property assignment does for duplicate keys. -/
def setKey : List (String × Json) → String → Json → List (String × Json)
  | [], k, v => [(k, v)]
  | (k2, v2) :: t, k, v => if k2 = k then (k2, v) :: t else (k2, v2) :: setKey t k v

/-- Parser mode: a value, the members of an object, or the elements of an
array (with the entries accumulated so far). -/
inductive PMode where
  | val
  | members (acc : List (String × Json))
  | elems (acc : List Json)

/-- The recursive JSON parser.  Fuel decreases at each nested parse, so any
fuel exceeding the input length suffices. -/
def pGo : Nat → PMode → List Char → Option (Json × List Char)
  | 0, _, _ => none
  | fuel + 1, .val, input =>
    match skipWsL input with
    | [] => none
    | c :: rest =>
      if c = 'n' then
        match rest with
        | 'u' :: 'l' :: 'l' :: r => some (.null, r)
        | _ => none
      else if c = 't' then
        match rest with
        | 'r' :: 'u' :: 'e' :: r => some (.jbool true, r)
        | _ => none
      else if c = 'f' then
        match rest with
        | 'a' :: 'l' :: 's' :: 'e' :: r => some (.jbool false, r)
        | _ => none
      else if c = '"' then
        match pString rest with
        | some (cs, r) => some (.str (String.mk cs), r)
        | none => none
      else if c = '\x7b' then
        match skipWsL rest with
        | '\x7d' :: r2 => some (.obj [], r2)
        | r2 => pGo fuel (.members []) r2
      else if c = '[' then
        match skipWsL rest with
        | ']' :: r2 => some (.arr [], r2)
        | r2 => pGo fuel (.elems []) r2
      else pNum (c :: rest)
  | fuel + 1, .members acc, input =>
    match input with
    | [] => none
    | c :: rest =>
      if c = '"' then
        match pString rest with
        | some (kcs, r1) =>
          match skipWsL r1 with
          | [] => none
          | c2 :: r2 =>
            if c2 = ':' then
              match pGo fuel .val r2 with
              | some (v, r3) =>
                match skipWsL r3 with
                | [] => none
                | c3 :: r4 =>
                  if c3 = ',' then
                    pGo fuel (.members (setKey acc (String.mk kcs) v)) (skipWsL r4)
                  else if c3 = '\x7d' then
                    some (.obj (setKey acc (String.mk kcs) v), r4)
                  else none
              | none => none
            else none
        | none => none
      else none
  | fuel + 1, .elems acc, input =>
    match pGo fuel .val input with
    | some (v, r) =>
      match skipWsL r with
      | [] => none
      | c2 :: r2 =>
        if c2 = ',' then pGo fuel (.elems (acc ++ [v])) r2
        else if c2 = ']' then some (.arr (acc ++ [v]), r2)
        else none
    | none => none

/-- The `JSON.parse` function: parse one value and require only whitespace
after it; `none` models the thrown `SyntaxError`. -/
def jsonParse (s : String) : Option Json :=
  match pGo (s.length + 1) .val s.data with
  | some (v, rest) => if (skipWsL rest).isEmpty then some v else none
  | none => none

/-! ### Printer/parser inversion: strings -/

theorem charOfNat_toNat (n : Nat) (h : n.isValidChar) : (Char.ofNat n).toNat = n := by
  simp [Char.ofNat, h, Char.ofNatAux, Char.toNat]
  rfl

theorem stringMk_data (s : String) : String.mk s.data = s := rfl

theorem hexVal_hexDigitChar : ∀ x < 16, hexVal (hexDigitChar x) = some x := by decide

theorem hex4_00 (h1 h2 : Nat) (ha : h1 < 16) (hb : h2 < 16) :
    hex4 '0' '0' (hexDigitChar h1) (hexDigitChar h2) = some (h1 * 16 + h2) := by
  have e1 : hexVal (hexDigitChar h1) = some h1 := hexVal_hexDigitChar _ ha
  have e2 : hexVal (hexDigitChar h2) = some h2 := hexVal_hexDigitChar _ hb
  have e0 : hexVal '0' = some 0 := by decide
  simp only [hex4, e0, e1, e2]
  have harith : ((0 * 16 + 0) * 16 + h1) * 16 + h2 = h1 * 16 + h2 := by ring
  rw [harith]

theorem unescape1_u00 (c : Char) (hc : c.toNat < 32) (t : List Char) :
    unescape1 ('u' :: '0' :: '0' :: hexDigitChar (c.toNat / 16) ::
      hexDigitChar (c.toNat % 16) :: t) = some (c, t) := by
  have hh : hex4 '0' '0' (hexDigitChar (c.toNat / 16)) (hexDigitChar (c.toNat % 16)) =
      some (c.toNat / 16 * 16 + c.toNat % 16) := hex4_00 _ _ (by omega) (by omega)
  have hn : c.toNat / 16 * 16 + c.toNat % 16 = c.toNat := by omega
  rw [hn] at hh
  simp +decide only [unescape1, hh, if_true, if_false]
  rw [if_pos (Or.inl (by omega))]
  rw [Char.ofNat_toNat c]

theorem unescape1_quote (t : List Char) : unescape1 ('"' :: t) = some ('"', t) := rfl

theorem unescape1_bs (t : List Char) : unescape1 ('\\' :: t) = some ('\\', t) := rfl

theorem unescape1_b (t : List Char) : unescape1 ('b' :: t) = some ('\x08', t) := rfl

theorem unescape1_f (t : List Char) : unescape1 ('f' :: t) = some ('\x0c', t) := rfl

theorem unescape1_n (t : List Char) : unescape1 ('n' :: t) = some ('\x0a', t) := rfl

theorem unescape1_r (t : List Char) : unescape1 ('r' :: t) = some ('\x0d', t) := rfl

theorem unescape1_t (t : List Char) : unescape1 ('t' :: t) = some ('\x09', t) := rfl

theorem pStrGo_quote (f : Nat) (t : List Char) : pStrGo (f + 1) ('"' :: t) = some ([], t) := rfl

theorem pStrGo_bs (f : Nat) (t : List Char) (d : Char) (cs2 : List Char)
    (h : unescape1 t = some (d, cs2)) :
    pStrGo (f + 1) ('\\' :: t) = consFst d (pStrGo f cs2) := by
  conv_lhs => rw [pStrGo]
  rw [if_neg (by decide : ¬('\\' = '"')), if_pos (rfl : '\\' = '\\'), h]

theorem pStrGo_other (f : Nat) (c : Char) (t : List Char) (h1 : c ≠ '"') (h2 : c ≠ '\\')
    (h3 : ¬ c.toNat < 32) : pStrGo (f + 1) (c :: t) = consFst c (pStrGo f t) := by
  conv_lhs => rw [pStrGo]
  rw [if_neg h1, if_neg h2, if_neg h3]

theorem escChar_length_pos (c : Char) : 1 ≤ (escChar c).length := by
  rw [escChar]
  split_ifs <;> simp

/-- Fuel consumed by the string-body parser is at most the number of source
characters, so any fuel exceeding the escaped length suffices. -/
theorem pStrGo_esc (cs : List Char) : ∀ f rest, (escChars cs).length < f →
    pStrGo f (escChars cs ++ '"' :: rest) = some (cs, rest) := by
  induction cs with
  | nil =>
      intro f rest hf
      obtain ⟨f2, rfl⟩ : ∃ f2, f = f2 + 1 := ⟨f - 1, by omega⟩
      simp only [escChars, List.map_nil, List.flatten_nil, List.nil_append]
      exact pStrGo_quote f2 rest
  | cons c cs ih =>
      intro f rest hf
      have hesc : escChars (c :: cs) = escChar c ++ escChars cs := by
        simp [escChars]
      rw [hesc] at hf ⊢
      rw [List.append_assoc]
      have hlen : (escChar c).length + (escChars cs).length < f := by
        simpa using hf
      have hlc := escChar_length_pos c
      obtain ⟨f2, rfl⟩ : ∃ f2, f = f2 + 1 := ⟨f - 1, by omega⟩
      have hih : pStrGo f2 (escChars cs ++ '"' :: rest) = some (cs, rest) := by
        apply ih
        omega
      rw [escChar]
      split_ifs with h1 h2 h3 h4 h5 h6 h7 h8
      · subst h1
        rw [show ['\\', '"'] ++ (escChars cs ++ '"' :: rest) =
          '\\' :: '"' :: (escChars cs ++ '"' :: rest) from rfl]
        rw [pStrGo_bs f2 _ '"' _ (unescape1_quote _), hih]
        rfl
      · subst h2
        rw [show ['\\', '\\'] ++ (escChars cs ++ '"' :: rest) =
          '\\' :: '\\' :: (escChars cs ++ '"' :: rest) from rfl]
        rw [pStrGo_bs f2 _ '\\' _ (unescape1_bs _), hih]
        rfl
      · subst h3
        rw [show ['\\', 'b'] ++ (escChars cs ++ '"' :: rest) =
          '\\' :: 'b' :: (escChars cs ++ '"' :: rest) from rfl]
        rw [pStrGo_bs f2 _ '\x08' _ (unescape1_b _), hih]
        rfl
      · subst h4
        rw [show ['\\', 'f'] ++ (escChars cs ++ '"' :: rest) =
          '\\' :: 'f' :: (escChars cs ++ '"' :: rest) from rfl]
        rw [pStrGo_bs f2 _ '\x0c' _ (unescape1_f _), hih]
        rfl
      · subst h5
        rw [show ['\\', 'n'] ++ (escChars cs ++ '"' :: rest) =
          '\\' :: 'n' :: (escChars cs ++ '"' :: rest) from rfl]
        rw [pStrGo_bs f2 _ '\x0a' _ (unescape1_n _), hih]
        rfl
      · subst h6
        rw [show ['\\', 'r'] ++ (escChars cs ++ '"' :: rest) =
          '\\' :: 'r' :: (escChars cs ++ '"' :: rest) from rfl]
        rw [pStrGo_bs f2 _ '\x0d' _ (unescape1_r _), hih]
        rfl
      · subst h7
        rw [show ['\\', 't'] ++ (escChars cs ++ '"' :: rest) =
          '\\' :: 't' :: (escChars cs ++ '"' :: rest) from rfl]
        rw [pStrGo_bs f2 _ '\x09' _ (unescape1_t _), hih]
        rfl
      · rw [show ['\\', 'u', '0', '0', hexDigitChar (c.toNat / 16), hexDigitChar (c.toNat % 16)]
            ++ (escChars cs ++ '"' :: rest) =
          '\\' :: 'u' :: '0' :: '0' :: hexDigitChar (c.toNat / 16) ::
            hexDigitChar (c.toNat % 16) :: (escChars cs ++ '"' :: rest) from rfl]
        rw [pStrGo_bs f2 _ c _ (unescape1_u00 c h8 _), hih]
        rfl
      · rw [show [c] ++ (escChars cs ++ '"' :: rest) =
          c :: (escChars cs ++ '"' :: rest) from rfl]
        rw [pStrGo_other f2 c _ h1 h2 h8, hih]
        rfl

theorem escChars_length_ge (cs : List Char) : cs.length ≤ (escChars cs).length := by
  induction cs with
  | nil => simp [escChars]
  | cons c cs ih =>
      have hesc : escChars (c :: cs) = escChar c ++ escChars cs := by simp [escChars]
      rw [hesc]
      have := escChar_length_pos c
      simp only [List.length_cons, List.length_append]
      omega

/-- The string parser inverts the printer's escaping. -/
theorem pString_esc (cs : List Char) (rest : List Char) :
    pString (escChars cs ++ '"' :: rest) = some (cs, rest) := by
  apply pStrGo_esc
  simp only [List.length_append, List.length_cons]
  omega

/-! ### Printer/parser inversion: numbers -/

theorem digitChar_isDigit : ∀ d < 10, isDigitC (Char.ofNat (48 + d)) = true := by decide

theorem digitChar_ne_zero : ∀ d < 10, d ≠ 0 → Char.ofNat (48 + d) ≠ '0' := by decide

theorem digitChar_ge_one : ∀ d < 10, d ≠ 0 →
    ('1' ≤ Char.ofNat (48 + d) ∧ Char.ofNat (48 + d) ≤ '9') := by decide

theorem zeroChar_not_one : ¬ ('1' ≤ '0' ∧ '0' ≤ '9') := by decide

theorem digitChar_toNat (d : Nat) (h : d < 10) : (Char.ofNat (48 + d)).toNat = 48 + d :=
  charOfNat_toNat _ (Or.inl (by omega))

theorem natCharsGo_digits : ∀ fuel : Nat, ∀ n acc, n < fuel → 0 < n →
    natCharsGo fuel n acc =
      ((Nat.digits 10 n).reverse.map (fun d => Char.ofNat (48 + d))) ++ acc := by
  intro fuel
  induction fuel with
  | zero => intro n acc h _; omega
  | succ fuel ih =>
      intro n acc hlt hpos
      rw [natCharsGo]
      split_ifs with h10
      · rw [Nat.digits_def' (by norm_num : (1 : ℕ) < 10) hpos]
        rw [Nat.div_eq_of_lt h10, Nat.digits_zero, Nat.mod_eq_of_lt h10]
        simp
      · rw [ih (n / 10) _ (by omega) (by omega)]
        rw [Nat.digits_def' (by norm_num : (1 : ℕ) < 10) hpos]
        simp

theorem natChars_eq (n : Nat) : natChars n =
    if n = 0 then ['0']
    else (Nat.digits 10 n).reverse.map (fun d => Char.ofNat (48 + d)) := by
  rw [natChars]
  split_ifs with h0
  · subst h0
    rfl
  · rw [natCharsGo_digits (n + 1) n [] (by omega) (by omega)]
    simp

theorem natChars_all_digit (n : Nat) : ∀ c ∈ natChars n, isDigitC c = true := by
  intro c hc
  rw [natChars_eq] at hc
  split_ifs at hc with h0
  · simp at hc
    subst hc
    decide
  · simp only [List.mem_map, List.mem_reverse] at hc
    obtain ⟨d, hd, rfl⟩ := hc
    exact digitChar_isDigit d (Nat.digits_lt_base (by norm_num) hd)

theorem digitsVal_map (L : List Nat) (a : Nat) (h : ∀ d ∈ L, d < 10) :
    List.foldl (fun acc c => acc * 10 + (c.toNat - 48)) a
        (L.map (fun d => Char.ofNat (48 + d))) =
      List.foldl (fun acc d => acc * 10 + d) a L := by
  induction L generalizing a with
  | nil => rfl
  | cons d L ih =>
      simp only [List.map_cons, List.foldl_cons]
      rw [digitChar_toNat d (h d (by simp))]
      have harith : a * 10 + (48 + d - 48) = a * 10 + d := by omega
      rw [harith]
      exact ih _ (fun x hx => h x (by simp [hx]))

theorem foldr_ofDigits (L : List Nat) :
    List.foldr (fun d acc => acc * 10 + d) 0 L = Nat.ofDigits 10 L := by
  induction L with
  | nil => simp [Nat.ofDigits]
  | cons d L ih =>
      simp only [List.foldr_cons, ih, Nat.ofDigits_cons]
      ring

theorem digitsVal_natChars (n : Nat) : digitsVal (natChars n) = n := by
  rw [natChars_eq]
  split_ifs with h0
  · subst h0
    decide
  · rw [digitsVal, digitsVal_map ((Nat.digits 10 n).reverse) 0
      (fun d hd => Nat.digits_lt_base (by norm_num) (List.mem_reverse.mp hd))]
    rw [List.foldl_reverse]
    rw [foldr_ofDigits, Nat.ofDigits_digits]

theorem takeWhile_append_all {p : Char → Bool} (l r : List Char) (h : ∀ c ∈ l, p c = true) :
    (l ++ r).takeWhile p = l ++ r.takeWhile p := by
  induction l with
  | nil => simp
  | cons c l ih =>
      simp only [List.cons_append, List.takeWhile_cons, h c (by simp), if_true]
      rw [ih (fun x hx => h x (by simp [hx]))]

theorem dropWhile_append_all {p : Char → Bool} (l r : List Char) (h : ∀ c ∈ l, p c = true) :
    (l ++ r).dropWhile p = r.dropWhile p := by
  induction l with
  | nil => simp
  | cons c l ih =>
      simp only [List.cons_append, List.dropWhile_cons, h c (by simp), if_true]
      exact ih (fun x hx => h x (by simp [hx]))

/-- In the printer's output, a number token is always followed by the end of
input or by a delimiter that stops number parsing. -/
def numStop : List Char → Prop
  | [] => True
  | c :: _ => isDigitC c = false ∧ c ≠ '.' ∧ c ≠ 'e' ∧ c ≠ 'E'

theorem takeWhile_numStop (r : List Char) (h : numStop r) : r.takeWhile isDigitC = [] := by
  cases r with
  | nil => rfl
  | cons c t => simp [List.takeWhile_cons, h.1]

theorem dropWhile_numStop (r : List Char) (h : numStop r) : r.dropWhile isDigitC = r := by
  cases r with
  | nil => rfl
  | cons c t => simp [List.dropWhile_cons, h.1]

theorem pIntPart_natChars (n : Nat) (rest : List Char) (h : numStop rest) :
    pIntPart (natChars n ++ rest) = some (n, rest) := by
  by_cases h0 : n = 0
  · subst h0
    show pIntPart ('0' :: rest) = some (0, rest)
    rw [pIntPart, if_pos rfl]
  · have hL : Nat.digits 10 n ≠ [] := Nat.digits_ne_nil_iff_ne_zero.mpr h0
    obtain ⟨d0, ds, hrev⟩ : ∃ d0 ds, (Nat.digits 10 n).reverse = d0 :: ds := by
      cases hr : (Nat.digits 10 n).reverse with
      | nil => exact absurd (by rwa [List.reverse_eq_nil_iff] at hr) hL
      | cons x xs => exact ⟨x, xs, rfl⟩
    have hnat : natChars n =
        Char.ofNat (48 + d0) :: ds.map (fun d => Char.ofNat (48 + d)) := by
      rw [natChars_eq, if_neg h0, hrev, List.map_cons]
    have hd0mem : d0 ∈ Nat.digits 10 n := by
      have : d0 ∈ (Nat.digits 10 n).reverse := by rw [hrev]; simp
      simpa using this
    have hd0lt : d0 < 10 := Nat.digits_lt_base (by norm_num) hd0mem
    have hd0ne : d0 ≠ 0 := by
      have hlast : (Nat.digits 10 n).getLast? = some d0 := by
        rw [← List.head?_reverse, hrev]
        rfl
      have hgl := Nat.getLast_digit_ne_zero 10 h0
      rw [List.getLast?_eq_getLast _ hL] at hlast
      have heq : (Nat.digits 10 n).getLast hL = d0 := Option.some.inj hlast
      exact heq ▸ hgl
    have hdsall : ∀ c ∈ ds.map (fun d => Char.ofNat (48 + d)), isDigitC c = true := by
      intro c hc
      have : c ∈ natChars n := by rw [hnat]; simp [hc]
      exact natChars_all_digit n c this
    rw [hnat, List.cons_append, pIntPart,
      if_neg (digitChar_ne_zero d0 hd0lt hd0ne),
      if_pos (digitChar_ge_one d0 hd0lt hd0ne)]
    rw [takeWhile_append_all _ _ hdsall, dropWhile_append_all _ _ hdsall,
      takeWhile_numStop _ h, dropWhile_numStop _ h, List.append_nil]
    rw [show (Char.ofNat (48 + d0) :: ds.map (fun d => Char.ofNat (48 + d))) = natChars n from
      hnat.symm]
    rw [digitsVal_natChars]

theorem pFrac_stop (r : List Char) (h : numStop r) : pFrac r = some (0, r) := by
  cases r with
  | nil => rfl
  | cons c t =>
      rw [pFrac, if_neg h.2.1]

theorem pExp_stop (r : List Char) (h : numStop r) : pExp r = some (0, r) := by
  cases r with
  | nil => rfl
  | cons c t =>
      have hc : ¬(c = 'e' ∨ c = 'E') := by
        rintro (hc | hc)
        exacts [h.2.2.1 hc, h.2.2.2 hc]
      simp only [pExp.eq_def, if_neg hc]

theorem natChars_ne_nil (n : Nat) : natChars n ≠ [] := by
  rw [natChars_eq]
  split_ifs with h0
  · simp
  · have hL : Nat.digits 10 n ≠ [] := Nat.digits_ne_nil_iff_ne_zero.mpr h0
    simp [hL]

theorem natChars_head_not_minus (n : Nat) :
    ∀ c t, natChars n = c :: t → c ≠ '-' := by
  intro c t hct hc
  subst hc
  have hd : isDigitC '-' = true := natChars_all_digit n '-' (by rw [hct]; simp)
  exact absurd hd (by decide)

theorem ratNumCastEq (q : ℚ) (h : q.den = 1) : ((q.num : ℚ)) = q := by
  have hd := Rat.num_div_den q
  rw [h] at hd
  simpa using hd

theorem pNum_natChars (n : Nat) (rest : List Char) (h : numStop rest) :
    pNum (natChars n ++ rest) = some (.num (n : ℚ), rest) := by
  obtain ⟨c0, t0, hct⟩ : ∃ c0 t0, natChars n = c0 :: t0 := by
    cases hc : natChars n with
    | nil => exact absurd hc (natChars_ne_nil n)
    | cons x xs => exact ⟨x, xs, rfl⟩
  have hm : c0 ≠ '-' := natChars_head_not_minus n c0 t0 hct
  rw [hct, List.cons_append]
  simp only [pNum, if_neg hm]
  rw [← List.cons_append, ← hct, pIntPart_natChars n rest h]
  simp [pFrac_stop rest h, pExp_stop rest h]

theorem pNum_intChars (i : ℤ) (rest : List Char) (h : numStop rest) :
    pNum (intChars i ++ rest) = some (.num (i : ℚ), rest) := by
  rw [intChars]
  split_ifs with hneg
  · rw [List.cons_append]
    have hcast : ((i.natAbs : ℚ)) = -(i : ℚ) := by
      rw [Int.cast_natAbs, abs_of_neg hneg]
      push_cast
      ring
    simp [pNum, pIntPart_natChars i.natAbs rest h, pFrac_stop rest h, pExp_stop rest h,
      hcast]
  · rw [pNum_natChars _ rest h]
    have hcast : ((i.toNat : ℚ)) = (i : ℚ) := by
      have h1 : ((i.toNat : ℤ)) = i := Int.toNat_of_nonneg (not_lt.mp hneg)
      have h2 := congrArg (fun z : ℤ => (z : ℚ)) h1
      push_cast at h2
      exact h2
    rw [hcast]

/-! ### Head-shape facts used to step the value parser -/

theorem natChars_head_struct (n : Nat) :
    ∃ d0 t0, d0 < 10 ∧ natChars n = Char.ofNat (48 + d0) :: t0 := by
  by_cases h0 : n = 0
  · subst h0
    exact ⟨0, [], by norm_num, rfl⟩
  · have hL : Nat.digits 10 n ≠ [] := Nat.digits_ne_nil_iff_ne_zero.mpr h0
    obtain ⟨d0, ds, hrev⟩ : ∃ d0 ds, (Nat.digits 10 n).reverse = d0 :: ds := by
      cases hr : (Nat.digits 10 n).reverse with
      | nil => exact absurd (by rwa [List.reverse_eq_nil_iff] at hr) hL
      | cons x xs => exact ⟨x, xs, rfl⟩
    have hd0mem : d0 ∈ Nat.digits 10 n := by
      have : d0 ∈ (Nat.digits 10 n).reverse := by rw [hrev]; simp
      simpa using this
    refine ⟨d0, ds.map (fun d => Char.ofNat (48 + d)),
      Nat.digits_lt_base (by norm_num) hd0mem, ?_⟩
    rw [natChars_eq, if_neg h0, hrev, List.map_cons]

theorem digitChar_dispatch : ∀ d < 10,
    (isWsJ (Char.ofNat (48 + d)) = false ∧ Char.ofNat (48 + d) ≠ 'n' ∧
     Char.ofNat (48 + d) ≠ 't' ∧ Char.ofNat (48 + d) ≠ 'f' ∧
     Char.ofNat (48 + d) ≠ '"' ∧ Char.ofNat (48 + d) ≠ '\x7b' ∧
     Char.ofNat (48 + d) ≠ '[' ∧ Char.ofNat (48 + d) ≠ ']' ∧
     Char.ofNat (48 + d) ≠ '\x7d' ∧ Char.ofNat (48 + d) ≠ ',') := by decide

theorem skipWsL_cons_not (c : Char) (cs : List Char) (h : isWsJ c = false) :
    skipWsL (c :: cs) = c :: cs := by
  simp [skipWsL, h]

/-! ### Value-level parser steps -/

theorem pGo_val_str (f : Nat) (s : String) (rest : List Char) :
    pGo (f + 1) .val (quoteStr s ++ rest) = some (.str s, rest) := by
  have hq : quoteStr s ++ rest = '"' :: (escChars s.data ++ '"' :: rest) := by
    simp [quoteStr]
  rw [hq]
  conv_lhs => rw [pGo]
  rw [skipWsL_cons_not _ _ (by decide)]
  simp +decide only [pString_esc, stringMk_data, if_true, if_false]

theorem pGo_val_null (f : Nat) (rest : List Char) :
    pGo (f + 1) .val (jChars .null ++ rest) = some (.null, rest) := by
  show pGo (f + 1) .val ('n' :: 'u' :: 'l' :: 'l' :: rest) = some (.null, rest)
  conv_lhs => rw [pGo]
  rw [skipWsL_cons_not _ _ (by decide)]
  simp +decide only [if_true, if_false]

theorem pGo_val_true (f : Nat) (rest : List Char) :
    pGo (f + 1) .val (jChars (.jbool true) ++ rest) = some (.jbool true, rest) := by
  show pGo (f + 1) .val ('t' :: 'r' :: 'u' :: 'e' :: rest) = some (.jbool true, rest)
  conv_lhs => rw [pGo]
  rw [skipWsL_cons_not _ _ (by decide)]
  simp +decide only [if_true, if_false]

theorem pGo_val_false (f : Nat) (rest : List Char) :
    pGo (f + 1) .val (jChars (.jbool false) ++ rest) = some (.jbool false, rest) := by
  show pGo (f + 1) .val ('f' :: 'a' :: 'l' :: 's' :: 'e' :: rest) = some (.jbool false, rest)
  conv_lhs => rw [pGo]
  rw [skipWsL_cons_not _ _ (by decide)]
  simp +decide only [if_true, if_false]

theorem pGo_val_num (f : Nat) (q : ℚ) (hq : q.den = 1) (rest : List Char) (h : numStop rest) :
    pGo (f + 1) .val (jChars (.num q) ++ rest) = some (.num q, rest) := by
  show pGo (f + 1) .val (numChars q ++ rest) = some (.num q, rest)
  have hpn : pNum (numChars q ++ rest) = some (.num q, rest) := by
    show pNum (intChars q.num ++ rest) = some (.num q, rest)
    rw [pNum_intChars q.num rest h, ratNumCastEq q hq]
  rw [numChars, intChars]
  by_cases hneg : q.num < 0
  · rw [if_pos hneg, List.cons_append]
    conv_lhs => rw [pGo]
    rw [skipWsL_cons_not _ _ (by decide)]
    simp +decide only [if_true, if_false]
    rw [← List.cons_append]
    have hic : intChars q.num = '-' :: natChars q.num.natAbs := by
      rw [intChars, if_pos hneg]
    rw [← hic]
    exact hpn
  · rw [if_neg hneg]
    obtain ⟨d0, t0, hd0, hnat⟩ := natChars_head_struct q.num.toNat
    obtain ⟨hws, hn, ht, hf, hqo, hb, hk, hk2, hb2, hcm⟩ := digitChar_dispatch d0 hd0
    rw [hnat, List.cons_append]
    conv_lhs => rw [pGo]
    rw [skipWsL_cons_not _ _ hws]
    simp only [hn, ht, hf, hqo, hb, hk, if_false]
    rw [← List.cons_append, ← hnat]
    have hic : intChars q.num = natChars q.num.toNat := by
      rw [intChars, if_neg hneg]
    rw [← hic]
    exact hpn

/-! ### Object/array machinery for the round-trip induction -/

theorem setKey_notmem (acc : List (String × Json)) (k : String) (v : Json)
    (h : k ∉ acc.map Prod.fst) : setKey acc k v = acc ++ [(k, v)] := by
  induction acc with
  | nil => rfl
  | cons kv acc ih =>
      obtain ⟨k2, v2⟩ := kv
      have hk2 : k2 ≠ k := by
        intro hk
        exact h (by simp [hk])
      rw [setKey, if_neg hk2]
      rw [ih (by intro hm; exact h (by simp [hm]))]
      simp

theorem jChars_head (v : Json) :
    ∃ c t, jChars v = c :: t ∧ isWsJ c = false ∧ c ≠ ']' ∧ c ≠ '\x7d' := by
  cases v with
  | null => refine ⟨'n', _, rfl, ?_, ?_, ?_⟩ <;> decide
  | jbool b =>
      cases b
      case true => refine ⟨'t', _, rfl, ?_, ?_, ?_⟩ <;> decide
      case false => refine ⟨'f', _, rfl, ?_, ?_, ?_⟩ <;> decide
  | num q =>
      show ∃ c t, numChars q = c :: t ∧ _
      rw [numChars, intChars]
      split_ifs with hneg
      · refine ⟨'-', _, rfl, ?_, ?_, ?_⟩ <;> decide
      · obtain ⟨d0, t0, hd0, hnat⟩ := natChars_head_struct q.num.toNat
        obtain ⟨hws, _, _, _, _, _, _, hk2, hb2, _⟩ := digitChar_dispatch d0 hd0
        exact ⟨_, _, hnat, hws, hk2, hb2⟩
  | str s =>
      show ∃ c t, quoteStr s = c :: t ∧ _
      refine ⟨'"', _, rfl, ?_, ?_, ?_⟩ <;> decide
  | arr es => refine ⟨'[', _, rfl, ?_, ?_, ?_⟩ <;> decide
  | obj kvs => refine ⟨'\x7b', _, rfl, ?_, ?_, ?_⟩ <;> decide

theorem jCharsObj_single (k : String) (v : Json) :
    jCharsObj [(k, v)] = quoteStr k ++ ':' :: jChars v := by
  simp [jCharsObj]

theorem jCharsObj_cons2 (k : String) (v : Json) (kv2 : String × Json)
    (kvs : List (String × Json)) :
    jCharsObj ((k, v) :: kv2 :: kvs) =
      quoteStr k ++ ':' :: jChars v ++ ',' :: jCharsObj (kv2 :: kvs) := by
  simp [jCharsObj]

theorem jCharsArr_single (v : Json) : jCharsArr [v] = jChars v := by
  simp [jCharsArr]

theorem jCharsArr_cons2 (v v2 : Json) (vs : List Json) :
    jCharsArr (v :: v2 :: vs) = jChars v ++ ',' :: jCharsArr (v2 :: vs) := by
  simp [jCharsArr]

theorem quoteStr_length (s : String) : (quoteStr s).length = (escChars s.data).length + 2 := by
  simp [quoteStr]

theorem numStop_rbrace (rest : List Char) : numStop ('\x7d' :: rest) := by
  refine ⟨by decide, by decide, by decide, by decide⟩

theorem numStop_rbrack (rest : List Char) : numStop (']' :: rest) := by
  refine ⟨by decide, by decide, by decide, by decide⟩

theorem numStop_comma (rest : List Char) : numStop (',' :: rest) := by
  refine ⟨by decide, by decide, by decide, by decide⟩

theorem jCharsObj_head (k : String) (v : Json) (kvs2 : List (String × Json)) :
    ∃ t, jCharsObj ((k, v) :: kvs2) = '"' :: t := by
  cases kvs2 with
  | nil =>
      refine ⟨escChars k.data ++ '"' :: ':' :: jChars v, ?_⟩
      rw [jCharsObj_single]
      simp [quoteStr]
  | cons kv2 kvs3 =>
      refine ⟨escChars k.data ++ '"' :: ':' :: (jChars v ++ ',' :: jCharsObj (kv2 :: kvs3)), ?_⟩
      rw [jCharsObj_cons2]
      simp [quoteStr]

theorem pGo_val_obj_nil (f : Nat) (rest : List Char) :
    pGo (f + 1) .val (jChars (.obj []) ++ rest) = some (.obj [], rest) := by
  show pGo (f + 1) .val ('\x7b' :: '\x7d' :: rest) = _
  conv_lhs => rw [pGo]
  rw [skipWsL_cons_not _ _ (by decide)]
  simp +decide only [if_true, if_false]
  rw [skipWsL_cons_not _ _ (by decide)]
  rfl

theorem pGo_val_arr_nil (f : Nat) (rest : List Char) :
    pGo (f + 1) .val (jChars (.arr []) ++ rest) = some (.arr [], rest) := by
  show pGo (f + 1) .val ('[' :: ']' :: rest) = _
  conv_lhs => rw [pGo]
  rw [skipWsL_cons_not _ _ (by decide)]
  simp +decide only [if_true, if_false]
  rw [skipWsL_cons_not _ _ (by decide)]
  rfl

theorem pGo_val_obj_step (f : Nat) (k : String) (v : Json) (kvs2 : List (String × Json))
    (rest : List Char) :
    pGo (f + 1) .val (jChars (.obj ((k, v) :: kvs2)) ++ rest) =
      pGo f (.members []) (jCharsObj ((k, v) :: kvs2) ++ '\x7d' :: rest) := by
  obtain ⟨t, ht⟩ := jCharsObj_head k v kvs2
  have hj : jChars (.obj ((k, v) :: kvs2)) ++ rest =
      '\x7b' :: (jCharsObj ((k, v) :: kvs2) ++ '\x7d' :: rest) := by
    show '\x7b' :: (jCharsObj ((k, v) :: kvs2) ++ ['\x7d']) ++ rest = _
    simp
  rw [hj]
  conv_lhs => rw [pGo]
  rw [skipWsL_cons_not _ _ (by decide)]
  simp +decide only [if_true, if_false]
  rw [ht, List.cons_append, skipWsL_cons_not _ _ (by decide)]
  show pGo f (.members []) ('"' :: (t ++ '\x7d' :: rest)) = _
  rw [← List.cons_append, ← ht]

theorem pGo_val_arr_step (f : Nat) (v : Json) (vs : List Json) (rest : List Char) :
    pGo (f + 1) .val (jChars (.arr (v :: vs)) ++ rest) =
      pGo f (.elems []) (jCharsArr (v :: vs) ++ ']' :: rest) := by
  obtain ⟨c, t, hct, hws, hrb, hrc⟩ := jChars_head v
  obtain ⟨t2, ht2⟩ : ∃ t2, jCharsArr (v :: vs) = c :: t2 := by
    cases vs with
    | nil => exact ⟨t, by rw [jCharsArr_single, hct]⟩
    | cons v2 vs2 =>
        refine ⟨t ++ ',' :: jCharsArr (v2 :: vs2), ?_⟩
        rw [jCharsArr_cons2, hct]
        simp
  have hj : jChars (.arr (v :: vs)) ++ rest = '[' :: (jCharsArr (v :: vs) ++ ']' :: rest) := by
    show '[' :: (jCharsArr (v :: vs) ++ [']']) ++ rest = _
    simp
  rw [hj]
  conv_lhs => rw [pGo]
  rw [skipWsL_cons_not _ _ (by decide)]
  simp +decide only [if_true, if_false]
  rw [ht2, List.cons_append, skipWsL_cons_not _ _ hws]
  rw [← List.cons_append, ← ht2]
  split
  · rename_i r2 heq
    rw [ht2, List.cons_append, List.cons.injEq] at heq
    exact absurd heq.1 hrb
  · rfl

theorem pGo_members_last (f : Nat) (k : String) (v : Json) (acc : List (String × Json))
    (rest : List Char)
    (hval : pGo f .val (jChars v ++ '\x7d' :: rest) = some (v, '\x7d' :: rest)) :
    pGo (f + 1) (.members acc) ((quoteStr k ++ ':' :: jChars v) ++ '\x7d' :: rest) =
      some (.obj (setKey acc k v), rest) := by
  have hshape : (quoteStr k ++ ':' :: jChars v) ++ '\x7d' :: rest =
      '"' :: (escChars k.data ++ '"' :: (':' :: (jChars v ++ '\x7d' :: rest))) := by
    simp [quoteStr]
  rw [hshape]
  conv_lhs => rw [pGo]
  simp +decide only [if_true, if_false]
  rw [pString_esc]
  simp +decide only [if_true, if_false]
  rw [skipWsL_cons_not _ _ (by decide)]
  simp +decide only [if_true, if_false]
  rw [hval]
  simp +decide only [if_true, if_false]
  rw [skipWsL_cons_not _ _ (by decide)]
  simp +decide only [if_true, if_false, stringMk_data]

theorem pGo_members_comma (f : Nat) (k : String) (v : Json) (acc : List (String × Json))
    (t : List Char)
    (hval : pGo f .val (jChars v ++ ',' :: '"' :: t) = some (v, ',' :: '"' :: t)) :
    pGo (f + 1) (.members acc) ((quoteStr k ++ ':' :: jChars v) ++ ',' :: '"' :: t) =
      pGo f (.members (setKey acc k v)) ('"' :: t) := by
  have hshape : (quoteStr k ++ ':' :: jChars v) ++ ',' :: '"' :: t =
      '"' :: (escChars k.data ++ '"' :: (':' :: (jChars v ++ ',' :: '"' :: t))) := by
    simp [quoteStr]
  rw [hshape]
  conv_lhs => rw [pGo]
  simp +decide only [if_true, if_false]
  rw [pString_esc]
  simp +decide only [if_true, if_false]
  rw [skipWsL_cons_not _ _ (by decide)]
  simp +decide only [if_true, if_false]
  rw [hval]
  simp +decide only [if_true, if_false]
  rw [skipWsL_cons_not _ _ (by decide)]
  simp +decide only [if_true, if_false, stringMk_data]
  rw [skipWsL_cons_not _ _ (by decide)]

theorem pGo_elems_last (f : Nat) (v : Json) (acc : List Json) (rest : List Char)
    (hval : pGo f .val (jChars v ++ ']' :: rest) = some (v, ']' :: rest)) :
    pGo (f + 1) (.elems acc) (jChars v ++ ']' :: rest) = some (.arr (acc ++ [v]), rest) := by
  conv_lhs => rw [pGo]
  rw [hval]
  simp +decide only [if_true, if_false]
  rw [skipWsL_cons_not _ _ (by decide)]
  simp +decide only [if_true, if_false]

theorem pGo_elems_comma (f : Nat) (v : Json) (acc : List Json) (t : List Char)
    (hval : pGo f .val (jChars v ++ ',' :: t) = some (v, ',' :: t)) :
    pGo (f + 1) (.elems acc) (jChars v ++ ',' :: t) = pGo f (.elems (acc ++ [v])) t := by
  conv_lhs => rw [pGo]
  rw [hval]
  simp +decide only [if_true, if_false]
  rw [skipWsL_cons_not _ _ (by decide)]
  simp +decide only [if_true, if_false]

/-- Joint induction: the parser inverts the printer on canonical values, on
nonempty object member lists, and on nonempty array element lists. -/
theorem printParseAux : ∀ N : Nat,
    (∀ v : Json, sizeOf v ≤ N → canonJ v = true → ∀ f rest, numStop rest →
      (jChars v).length < f → pGo f .val (jChars v ++ rest) = some (v, rest)) ∧
    (∀ kvs : List (String × Json), sizeOf kvs ≤ N → kvs ≠ [] → canonObj kvs = true →
      (kvs.map Prod.fst).Nodup →
      ∀ acc f rest, (∀ k2 ∈ acc.map Prod.fst, k2 ∉ kvs.map Prod.fst) →
      (jCharsObj kvs).length + 1 < f →
      pGo f (.members acc) (jCharsObj kvs ++ '\x7d' :: rest) =
        some (.obj (acc ++ kvs), rest)) ∧
    (∀ es : List Json, sizeOf es ≤ N → es ≠ [] → canonArr es = true →
      ∀ acc f rest, (jCharsArr es).length + 1 < f →
      pGo f (.elems acc) (jCharsArr es ++ ']' :: rest) = some (.arr (acc ++ es), rest)) := by
  intro N
  induction N using Nat.strong_induction_on with
  | _ N IH =>
  refine ⟨?_, ?_, ?_⟩
  · -- values
    intro v hsz hcanon f rest hstop hf
    obtain ⟨f2, rfl⟩ : ∃ f2, f = f2 + 1 := ⟨f - 1, by omega⟩
    cases v with
    | null => exact pGo_val_null f2 rest
    | jbool b =>
        cases b with
        | true => exact pGo_val_true f2 rest
        | false => exact pGo_val_false f2 rest
    | num q =>
        have hq : q.den = 1 := by simpa [canonJ] using hcanon
        exact pGo_val_num f2 q hq rest hstop
    | str s => exact pGo_val_str f2 s rest
    | arr es =>
        cases es with
        | nil => exact pGo_val_arr_nil f2 rest
        | cons v vs =>
            rw [pGo_val_arr_step]
            have hsz2 : sizeOf (v :: vs) ≤ N - 1 := by
              have : sizeOf (Json.arr (v :: vs)) = 1 + sizeOf (v :: vs) := by simp
              omega
            have hN : N - 1 < N := by
              have : 1 ≤ sizeOf (Json.arr (v :: vs)) := by
                have : sizeOf (Json.arr (v :: vs)) = 1 + sizeOf (v :: vs) := by simp
                omega
              omega
            have hcanonA : canonArr (v :: vs) = true := by simpa [canonJ] using hcanon
            have hlen : (jCharsArr (v :: vs)).length + 1 < f2 := by
              have : (jChars (Json.arr (v :: vs))).length =
                  (jCharsArr (v :: vs)).length + 2 := by
                show ('[' :: (jCharsArr (v :: vs) ++ [']'])).length = _
                simp
              omega
            have hres := (IH (N - 1) hN).2.2 (v :: vs) hsz2 (by simp) hcanonA [] f2 rest hlen
            rw [hres]
            simp
    | obj kvs =>
        cases kvs with
        | nil => exact pGo_val_obj_nil f2 rest
        | cons kv kvs2 =>
            obtain ⟨k, v⟩ := kv
            rw [pGo_val_obj_step]
            have hsz2 : sizeOf ((k, v) :: kvs2) ≤ N - 1 := by
              have : sizeOf (Json.obj ((k, v) :: kvs2)) = 1 + sizeOf ((k, v) :: kvs2) := by
                simp
              omega
            have hN : N - 1 < N := by
              have : sizeOf (Json.obj ((k, v) :: kvs2)) = 1 + sizeOf ((k, v) :: kvs2) := by
                simp
              omega
            have hcanonO : canonObj ((k, v) :: kvs2) = true ∧
                (((k, v) :: kvs2).map Prod.fst).Nodup := by
              have := hcanon
              simp only [canonJ, Bool.and_eq_true, decide_eq_true_eq] at this
              exact ⟨this.2, this.1⟩
            have hlen : (jCharsObj ((k, v) :: kvs2)).length + 1 < f2 := by
              have : (jChars (Json.obj ((k, v) :: kvs2))).length =
                  (jCharsObj ((k, v) :: kvs2)).length + 2 := by
                show ('\x7b' :: (jCharsObj ((k, v) :: kvs2) ++ ['\x7d'])).length = _
                simp
              omega
            have hres := (IH (N - 1) hN).2.1 ((k, v) :: kvs2) hsz2 (by simp) hcanonO.1
              hcanonO.2 [] f2 rest (by simp) hlen
            rw [hres]
            simp
  · -- object members
    intro kvs hsz hne hcanon hnodup acc f rest hdisj hf
    cases kvs with
    | nil => exact absurd rfl hne
    | cons kv kvs2 =>
        obtain ⟨k, v⟩ := kv
        obtain ⟨f2, rfl⟩ : ∃ f2, f = f2 + 1 := ⟨f - 1, by omega⟩
        have hkacc : k ∉ acc.map Prod.fst := by
          intro hmem
          exact hdisj k hmem (by simp)
        have hcv : canonJ v = true := by
          simp only [canonObj, Bool.and_eq_true] at hcanon
          exact hcanon.1
        have hszv : sizeOf v ≤ N - 1 := by
          have h1 : sizeOf ((k, v) :: kvs2) = 1 + (1 + sizeOf k + sizeOf v) + sizeOf kvs2 := by
            simp
          omega
        have hN : N - 1 < N := by
          have h1 : sizeOf ((k, v) :: kvs2) = 1 + (1 + sizeOf k + sizeOf v) + sizeOf kvs2 := by
            simp
          omega
        cases kvs2 with
        | nil =>
            have hre : jCharsObj [(k, v)] ++ '\x7d' :: rest =
                (quoteStr k ++ ':' :: jChars v) ++ '\x7d' :: rest := by
              rw [jCharsObj_single]
            rw [hre]
            have hlenv : (jChars v).length < f2 := by
              have h1 : (jCharsObj [(k, v)]).length =
                  (quoteStr k).length + 1 + (jChars v).length := by
                rw [jCharsObj_single]
                simp only [List.length_append, List.length_cons]
                omega
              have h2 := quoteStr_length k
              omega
            have hval := (IH (N - 1) hN).1 v hszv hcv f2 ('\x7d' :: rest)
              (numStop_rbrace rest) hlenv
            rw [pGo_members_last f2 k v acc rest hval]
            rw [setKey_notmem acc k v hkacc]
        | cons kv2 kvs3 =>
            obtain ⟨t3, ht3⟩ := jCharsObj_head kv2.1 kv2.2 kvs3
            have ht3' : jCharsObj (kv2 :: kvs3) = '"' :: t3 := by
              rw [← ht3]
            have hre : jCharsObj ((k, v) :: kv2 :: kvs3) ++ '\x7d' :: rest =
                (quoteStr k ++ ':' :: jChars v) ++ ',' :: '"' :: (t3 ++ '\x7d' :: rest) := by
              rw [jCharsObj_cons2, ht3']
              simp
            rw [hre]
            have hlenv : (jChars v).length < f2 := by
              have h1 : (jCharsObj ((k, v) :: kv2 :: kvs3)).length =
                  (quoteStr k).length + 1 + (jChars v).length + 1 +
                    (jCharsObj (kv2 :: kvs3)).length := by
                rw [jCharsObj_cons2]
                simp only [List.length_append, List.length_cons]
                omega
              have h2 := quoteStr_length k
              omega
            have hval := (IH (N - 1) hN).1 v hszv hcv f2 (',' :: '"' :: (t3 ++ '\x7d' :: rest))
              (numStop_comma _) hlenv
            rw [pGo_members_comma f2 k v acc (t3 ++ '\x7d' :: rest) hval]
            rw [show ('"' : Char) :: (t3 ++ '\x7d' :: rest) =
              ('"' :: t3) ++ '\x7d' :: rest from rfl]
            rw [← ht3']
            have hszk : sizeOf (kv2 :: kvs3) ≤ N - 1 := by
              have h1 : sizeOf ((k, v) :: kv2 :: kvs3) =
                  1 + (1 + sizeOf k + sizeOf v) + sizeOf (kv2 :: kvs3) := by simp
              omega
            have hcanon2 : canonObj (kv2 :: kvs3) = true := by
              have h := hcanon
              simp only [canonObj, Bool.and_eq_true] at h
              simp only [canonObj, Bool.and_eq_true]
              exact h.2
            have hnodup2 : ((kv2 :: kvs3).map Prod.fst).Nodup := by
              rw [List.map_cons, List.nodup_cons] at hnodup
              exact hnodup.2
            have hdisj2 : ∀ k2 ∈ (setKey acc k v).map Prod.fst,
                k2 ∉ (kv2 :: kvs3).map Prod.fst := by
              intro k2 hk2 hk2mem
              rw [setKey_notmem acc k v hkacc] at hk2
              simp only [List.map_append, List.mem_append] at hk2
              cases hk2 with
              | inl hin =>
                  apply hdisj k2 hin
                  rw [List.map_cons]
                  exact List.mem_cons_of_mem _ hk2mem
              | inr hin =>
                  simp only [List.map_cons, List.map_nil, List.mem_singleton] at hin
                  have hnd := hnodup
                  rw [List.map_cons, List.nodup_cons] at hnd
                  exact hnd.1 (hin ▸ hk2mem)
            have hlen2 : (jCharsObj (kv2 :: kvs3)).length + 1 < f2 := by
              have h1 : (jCharsObj ((k, v) :: kv2 :: kvs3)).length =
                  (quoteStr k).length + 1 + (jChars v).length + 1 +
                    (jCharsObj (kv2 :: kvs3)).length := by
                rw [jCharsObj_cons2]
                simp only [List.length_append, List.length_cons]
                omega
              have h2 := quoteStr_length k
              omega
            have hres := (IH (N - 1) hN).2.1 (kv2 :: kvs3) hszk (by simp) hcanon2 hnodup2
              (setKey acc k v) f2 rest hdisj2 hlen2
            rw [hres, setKey_notmem acc k v hkacc]
            simp
  · -- array elements
    intro es hsz hne hcanon acc f rest hf
    cases es with
    | nil => exact absurd rfl hne
    | cons v vs =>
        obtain ⟨f2, rfl⟩ : ∃ f2, f = f2 + 1 := ⟨f - 1, by omega⟩
        have hcv : canonJ v = true := by
          simp only [canonArr, Bool.and_eq_true] at hcanon
          exact hcanon.1
        have hszv : sizeOf v ≤ N - 1 := by
          have h1 : sizeOf (v :: vs) = 1 + sizeOf v + sizeOf vs := by simp
          omega
        have hN : N - 1 < N := by
          have h1 : sizeOf (v :: vs) = 1 + sizeOf v + sizeOf vs := by simp
          omega
        cases vs with
        | nil =>
            rw [jCharsArr_single]
            have hlenv : (jChars v).length < f2 := by
              have h1 := jCharsArr_single v
              have h2 : (jCharsArr [v]).length = (jChars v).length := by rw [h1]
              omega
            have hval := (IH (N - 1) hN).1 v hszv hcv f2 (']' :: rest)
              (numStop_rbrack rest) hlenv
            exact pGo_elems_last f2 v acc rest hval
        | cons v2 vs2 =>
            obtain ⟨c, t, hct, hws, hrb, hrc⟩ := jChars_head v2
            obtain ⟨t2, ht2⟩ : ∃ t2, jCharsArr (v2 :: vs2) = c :: t2 := by
              cases vs2 with
              | nil => exact ⟨t, by rw [jCharsArr_single, hct]⟩
              | cons v3 vs3 =>
                  refine ⟨t ++ ',' :: jCharsArr (v3 :: vs3), ?_⟩
                  rw [jCharsArr_cons2, hct]
                  simp
            have hre : jCharsArr (v :: v2 :: vs2) ++ ']' :: rest =
                jChars v ++ ',' :: (jCharsArr (v2 :: vs2) ++ ']' :: rest) := by
              rw [jCharsArr_cons2]
              simp
            rw [hre]
            have hlenv : (jChars v).length < f2 := by
              have h1 : (jCharsArr (v :: v2 :: vs2)).length =
                  (jChars v).length + 1 + (jCharsArr (v2 :: vs2)).length := by
                rw [jCharsArr_cons2]
                simp only [List.length_append, List.length_cons]
                omega
              omega
            have hval := (IH (N - 1) hN).1 v hszv hcv f2
              (',' :: (jCharsArr (v2 :: vs2) ++ ']' :: rest)) (numStop_comma _) hlenv
            rw [pGo_elems_comma f2 v acc _ hval]
            have hszk : sizeOf (v2 :: vs2) ≤ N - 1 := by
              have h1 : sizeOf (v :: v2 :: vs2) = 1 + sizeOf v + sizeOf (v2 :: vs2) := by simp
              omega
            have hcanon2 : canonArr (v2 :: vs2) = true := by
              have h := hcanon
              simp only [canonArr, Bool.and_eq_true] at h
              simp only [canonArr, Bool.and_eq_true]
              exact h.2
            have hlen2 : (jCharsArr (v2 :: vs2)).length + 1 < f2 := by
              have h1 : (jCharsArr (v :: v2 :: vs2)).length =
                  (jChars v).length + 1 + (jCharsArr (v2 :: vs2)).length := by
                rw [jCharsArr_cons2]
                simp only [List.length_append, List.length_cons]
                omega
              omega
            have hres := (IH (N - 1) hN).2.2 (v2 :: vs2) hszk (by simp) hcanon2
              (acc ++ [v]) f2 rest hlen2
            rw [hres]
            simp

/-- `JSON.parse` inverts `JSON.stringify` on every canonical JSON value. -/
theorem jsonParse_jChars (v : Json) (hcanon : canonJ v = true) :
    jsonParse (String.mk (jChars v)) = some v := by
  have hmain := (printParseAux (sizeOf v)).1 v le_rfl hcanon ((jChars v).length + 1) []
    trivial (by omega)
  rw [List.append_nil] at hmain
  have hlen : (String.mk (jChars v)).length = (jChars v).length := rfl
  have hdata : (String.mk (jChars v)).data = jChars v := rfl
  rw [jsonParse, hlen, hdata, hmain]
  rfl

/-! ### The handshake payload codec -/

/-- An `RTCSessionDescription`, as its `toJSON` serializes it (`{type, sdp}`). -/
structure SessionDesc where
  type : String
  sdp : String
deriving DecidableEq

/-- The `OfferPayload` interface of `types.ts`: session description, file
metadata and optional password digest. -/
structure OfferPayload where
  sdp : SessionDesc
  fileName : String
  fileSize : Nat
  passwordHash : Option String
deriving DecidableEq

/-- The JSON value `JSON.stringify` sees for a payload.  Property insertion
order is `sdp`, `fileName`, `fileSize`, then `passwordHash` when a secret was
supplied (the code assigns it after constructing the object). -/
def payloadJson (p : OfferPayload) : Json :=
  .obj ([("sdp", .obj [("type", .str p.sdp.type), ("sdp", .str p.sdp.sdp)]),
    ("fileName", .str p.fileName), ("fileSize", .num (p.fileSize : ℚ))] ++
    (match p.passwordHash with
     | some h => [("passwordHash", .str h)]
     | none => []))

/-- `btoa(JSON.stringify(payload))`: the sender's token construction; `none`
models the `InvalidCharacterError` btoa throws when the serialized payload
contains a character above U+00FF. -/
def encodePayload (p : OfferPayload) : Option String :=
  btoa (String.mk (jChars (payloadJson p)))

/-- `JSON.parse(atob(token))`: the receiver's raw decode.  No field
validation happens in the code — the parsed value is cast to `OfferPayload`. -/
def decodeToken (s : String) : Option Json :=
  (atob s).bind jsonParse

/-- Typed reading of the payload fields off a decoded JSON value, as the
code's property accesses consume them. -/
def payloadOfJson (j : Json) : Option OfferPayload :=
  match jget j "sdp", jget j "fileName", jget j "fileSize" with
  | some sdpJ, some (.str name), some (.num size) =>
    match jget sdpJ "type", jget sdpJ "sdp" with
    | some (.str ty), some (.str sd) =>
      if size.den = 1 ∧ 0 ≤ size.num then
        match jget j "passwordHash" with
        | none => some ⟨⟨ty, sd⟩, name, size.num.toNat, none⟩
        | some (.str h) => some ⟨⟨ty, sd⟩, name, size.num.toNat, some h⟩
        | some _ => none
      else none
    | _, _ => none
  | _, _, _ => none

/-- The typed decode: parse the token and read the payload fields. -/
def decodePayload (s : String) : Option OfferPayload :=
  (decodeToken s).bind payloadOfJson

/-- A serialized payload is a canonical JSON value. -/
theorem canonJ_payloadJson (p : OfferPayload) : canonJ (payloadJson p) = true := by
  cases hp : p.passwordHash <;>
    simp +decide [payloadJson, canonJ, canonObj, Rat.den_natCast, hp]

/-- Reading the fields of a serialized payload recovers the payload. -/
theorem payloadOfJson_payloadJson (p : OfferPayload) :
    payloadOfJson (payloadJson p) = some p := by
  obtain ⟨⟨ty, sd⟩, nm, sz, ph⟩ := p
  cases ph <;>
    simp +decide [payloadOfJson, payloadJson, jget, List.lookup,
      Rat.den_natCast, Rat.num_natCast, Int.toNat_natCast]

/-- The serialized payload is Latin-1, i.e. `btoa` accepts it. -/
def payloadLatin1 (p : OfferPayload) : Bool :=
  (jChars (payloadJson p)).all (fun c => c.toNat ≤ 255)

/-- Round-trip of the handshake codec on payloads whose serialization is
Latin-1: encoding succeeds and decoding the token restores the payload. -/
theorem roundtrip_latin1 (p : OfferPayload) (h : payloadLatin1 p = true) :
    ∃ t, encodePayload p = some t ∧ decodePayload t = some p := by
  have henc : encodePayload p =
      some (String.mk (btoaBytes ((jChars (payloadJson p)).map Char.toNat))) := by
    rw [encodePayload, btoa, if_pos]
    exact h
  refine ⟨_, henc, ?_⟩
  have hatob := atob_btoa _ _ henc
  rw [decodePayload, decodeToken, hatob]
  simp [jsonParse_jChars _ (canonJ_payloadJson p), payloadOfJson_payloadJson]

/-! ### JavaScript numbers for the progress computation -/

/-- JavaScript double values relevant to the progress arithmetic: NaN, signed
infinity, or an exact value. -/
inductive JSNum where
  | nan
  | inf (pos : Bool)
  | num (q : ℚ)
deriving DecidableEq

/-- IEEE-754 division as JavaScript performs it: `0 / 0` is NaN and `x / 0`
is a signed infinity — the division is not guarded. -/
def jdiv : JSNum → JSNum → JSNum
  | .num a, .num b =>
    if b = 0 then (if a = 0 then .nan else .inf (decide (0 < a))) else .num (a / b)
  | .nan, _ => .nan
  | _, .nan => .nan
  | .inf p, .num b => if b < 0 then .inf (!p) else .inf p
  | .inf _, .inf _ => .nan
  | .num _, .inf _ => .num 0

def jmul : JSNum → JSNum → JSNum
  | .num a, .num b => .num (a * b)
  | .nan, _ => .nan
  | _, .nan => .nan
  | .inf p, .num b => if b = 0 then .nan else .inf (p == decide (0 < b))
  | .num a, .inf p => if a = 0 then .nan else .inf (p == decide (0 < a))
  | .inf p, .inf p2 => .inf (p == p2)

/-- `Math.round`: half-up rounding; NaN and infinities pass through. -/
def jround : JSNum → JSNum
  | .nan => .nan
  | .inf p => .inf p
  | .num q => .num ((⌊q + 1 / 2⌋ : ℤ) : ℚ)

/-- `Math.round((transferred / size) * 100)` as both sides compute it. -/
def progressOf (t : JSNum) (size : JSNum) : JSNum :=
  jround (jmul (jdiv t size) (.num 100))

/-- JavaScript `ToNumber` on a possibly-undefined JSON value, as used when
the received metadata's `size` enters the division.  `undefined` is NaN;
string/array/object coercions are not exercised by the application and are
approximated as NaN. -/
def jsToNum : Option Json → JSNum
  | some (.num q) => .num q
  | some .null => .num 0
  | some (.jbool b) => .num (if b then 1 else 0)
  | _ => .nan

/-! ### The connection state machine -/

/-- The `AppState` union of `types.ts`. -/
inductive AppState where
  | idle
  | generatingOffer
  | awaitingAnswer
  | processingOffer
  | awaitingPassword
  | generatingAnswer
  | connecting
  | transferring
  | transferComplete
  | error
deriving DecidableEq

/-- The component's session state: every `useState` field, the refs, the
`localStorage` slot holding the pending payload, and the URL fragment.
`pcOpen`/`dcOpen` model whether the peer connection and data channel refs
hold live objects. -/
structure AppSt where
  appState : AppState
  file : Option (List Nat)
  password : String
  error : Option String
  offer : Option String
  isCopied : Bool
  progress : JSNum
  transferredBytes : Nat
  receivedFileInfo : Option (Option Json × Option Json)
  receivedFileChunks : List (List Nat)
  downloadUrl : Option (List Nat)
  localStore : Option String
  locationHash : String
  pcOpen : Bool
  dcOpen : Bool

/-- The initial component state. -/
def initState : AppSt :=
  { appState := .idle, file := none, password := "", error := none, offer := none,
    isCopied := false, progress := .num 0, transferredBytes := 0,
    receivedFileInfo := none, receivedFileChunks := [], downloadUrl := none,
    localStore := none, locationHash := "", pcOpen := false, dcOpen := false }

/-- `resetState`: clears every `useState` field, revokes the download URL,
closes the peer connection and data channel, and clears the URL fragment.
The code never removes the `localStorage` entry here, so the stored pending
payload survives a reset. -/
def resetState (s : AppSt) : AppSt :=
  { appState := .idle, file := none, password := "", error := none, offer := none,
    isCopied := false, progress := .num 0, transferredBytes := 0,
    receivedFileInfo := none, receivedFileChunks := [], downloadUrl := none,
    localStore := s.localStore, locationHash := "", pcOpen := false, dcOpen := false }

/-- A data-channel message: binary frame or text. -/
inductive Msg where
  | data (bytes : List Nat)
  | text (s : String)

/-- Classification of an inbound text message: it is the completion control
message exactly when `JSON.parse` succeeds and the parsed value's `type`
property is the string `"done"`.  A failed parse (or a parsed value without
the tag) is silently swallowed by the empty `catch` — it is not treated as
binary data. -/
def isDoneText (str : String) : Bool :=
  match jsonParse str with
  | some j =>
    match jget j "type" with
    | some (.str t) => t == "done"
    | _ => false
  | none => false

/-- The render-time values the installed `onmessage` handler closes over.
`setupDataChannel` is reached on the receiver through `pc.ondatachannel`, a
closure created by `createPeerConnection` in the render in which
`processOffer` ran; the handler it installs is installed exactly once and
never reassigned, so the `receivedFileChunks`, `transferredBytes` and
`receivedFileInfo` it reads stay frozen at that render's values for the
whole transfer. -/
structure RecvClosure where
  chunks0 : List (List Nat)
  tb0 : Nat
  info0 : Option (Option Json × Option Json)

/-- The receiver's `channel.onmessage` handler over its installation closure
`cl` and the live component state `s`.  A string carrying the `done` control
tag finalizes the blob from the CLOSURE's chunk list (`new
Blob(receivedFileChunks)` reads the frozen render value) and moves to
`transferComplete`; any other string is ignored.  Binary data is appended to
the live chunk list (`setReceivedFileChunks(prev => ...)` is a functional
update, so the state accumulates), but the byte counter is computed as
`transferredBytes + data.byteLength` from the CLOSURE's counter, overwriting
the state with that sum, and the `if (receivedFileInfo)` progress guard
reads the CLOSURE's metadata. -/
def channelOnMessage (cl : RecvClosure) (s : AppSt) (m : Msg) : AppSt :=
  match m with
  | .text str =>
    if isDoneText str then
      { s with downloadUrl := some cl.chunks0.flatten,
               appState := .transferComplete }
    else s
  | .data b =>
    let newT := cl.tb0 + b.length
    let s1 := { s with receivedFileChunks := s.receivedFileChunks ++ [b],
                       transferredBytes := newT }
    match cl.info0 with
    | some info => { s1 with progress := progressOf (.num newT) (jsToNum info.2) }
    | none => s1

/-- The closure of the handler as installed in every execution: the
`ondatachannel` closure comes from the render in which `processOffer`
created the connection, where the chunk list is empty, the counter is zero
and `receivedFileInfo` is still null (its setter runs in the same tick, but
the executing render's values are unchanged). -/
def installClosure : RecvClosure := ⟨[], 0, none⟩

/-- `processOffer`: stores the received file metadata from the decoded
payload, creates the peer connection, then accepts the remote descriptor and
produces an answer.  `transportOk` models whether those transport operations
succeed; on failure the catch block surfaces the error state, leaving the
already-stored metadata and the created connection in place. -/
def processOffer (j : Json) (transportOk : Bool) (s : AppSt) : AppSt :=
  let s1 := { s with receivedFileInfo := some (jget j "fileName", jget j "fileSize"),
                     pcOpen := true }
  if transportOk then { s1 with appState := .generatingAnswer }
  else { s1 with error := some "Failed to process transmission. The link might be invalid.",
                 appState := .error }

/-- The `useEffect` hash handler: with a nonempty fragment in `idle`, decode
it; decode failure surfaces `Invalid transmission link.`; a payload whose
`passwordHash` property is truthy is stored in `localStorage` pending
authentication; otherwise the offer is processed immediately.  No field
validation is performed on the decoded value. -/
def handleHashEffect (hash : String) (transportOk : Bool) (s : AppSt) : AppSt :=
  if hash ≠ "" ∧ s.appState = .idle then
    match decodeToken hash with
    | none => { s with error := some "Invalid transmission link.", appState := .error }
    | some j =>
      let s1 := { s with appState := .processingOffer }
      if jTruthy (jget j "passwordHash") then
        { s1 with localStore := some (String.mk (jChars j)), appState := .awaitingPassword }
      else processOffer j transportOk s1
  else s

/-- `handlePasswordSubmit`: a missing stored payload is terminal; otherwise
the submitted secret's digest is compared (JavaScript `===`) with the stored
payload's `passwordHash`; a match removes the stored payload and processes
the offer, a mismatch only surfaces `Incorrect secret code.`. -/
def handlePasswordSubmit (hashFn : String → String) (pass : String) (transportOk : Bool)
    (s : AppSt) : AppSt :=
  match s.localStore with
  | none =>
    { s with error := some "Transmission data not found. Please use the original link.",
             appState := .error }
  | some str =>
    match jsonParse str with
    | none => s
    | some j =>
      match jget j "passwordHash" with
      | some (.str d) =>
        if hashFn pass = d then processOffer j transportOk { s with localStore := none }
        else { s with error := some "Incorrect secret code." }
      | _ => { s with error := some "Incorrect secret code." }

/-- `handleConnect`: decodes the pasted counter-signal; failure of the decode
or of `setRemoteDescription` is caught and surfaces
`Invalid counter-signal format.` without changing the application state. -/
def handleConnect (ansStr : String) (transportOk : Bool) (s : AppSt) : AppSt :=
  match decodeToken ansStr with
  | none => { s with error := some "Invalid counter-signal format. Please try again." }
  | some _ =>
    if s.pcOpen then
      if transportOk then { s with appState := .connecting }
      else { s with error := some "Invalid counter-signal format. Please try again." }
    else s

/-! ### The chunked transfer protocol (sender) -/

def CHUNK_SIZE : Nat := 16384

/-- The sender's read-send loop: read `file.slice(offset, offset + 16384)`,
send it, and continue while `offset < file.size`; the very first slice is
read unconditionally, so an empty file still produces one empty frame.
Fuel decreases once per frame, so `file.length + 1` always suffices. -/
def sendChunksGo : Nat → List Nat → List (List Nat)
  | 0, _ => []
  | fuel + 1, rest =>
    if CHUNK_SIZE < rest.length then
      rest.take CHUNK_SIZE :: sendChunksGo fuel (rest.drop CHUNK_SIZE)
    else [rest]

/-- All binary frames `sendFileInChunks` sends for a file, in order. -/
def sendChunks (file : List Nat) : List (List Nat) :=
  sendChunksGo (file.length + 1) file

/-- `JSON.stringify({ type: 'done' })`, the completion control message. -/
def doneMsgText : String := String.mk (jChars (.obj [("type", .str "done")]))

/-- The full message sequence the sender emits: the binary frames in file
order followed by exactly one control message. -/
def senderMessages (file : List Nat) : List Msg :=
  (sendChunks file).map Msg.data ++ [Msg.text doneMsgText]

/-- The sender's per-frame state update: `offset += chunk.byteLength`,
`setTransferredBytes(offset)`, `setProgress(round((offset / size) * 100))`. -/
def senderStep (fsize : Nat) (s : AppSt) (frame : List Nat) : AppSt :=
  { s with transferredBytes := s.transferredBytes + frame.length,
           progress := progressOf (.num (s.transferredBytes + frame.length)) (.num fsize) }

/-- The sender's state after streaming a whole file and sending `done`. -/
def senderRun (file : List Nat) (s : AppSt) : AppSt :=
  { (sendChunks file).foldl (senderStep file.length) s with appState := .transferComplete }

/-! ### Chunking lemmas -/

/-- The frame sizes produced for a file of `n` bytes, mirroring the
read-send loop on lengths alone. -/
def frameSizesGo : Nat → Nat → List Nat
  | 0, _ => []
  | fuel + 1, n => if CHUNK_SIZE < n then CHUNK_SIZE :: frameSizesGo fuel (n - CHUNK_SIZE) else [n]

def frameSizes (n : Nat) : List Nat := frameSizesGo (n + 1) n

theorem sendChunksGo_flatten (fuel : Nat) : ∀ rest : List Nat,
    rest.length < fuel * CHUNK_SIZE → (sendChunksGo fuel rest).flatten = rest := by
  induction fuel with
  | zero =>
      intro rest h
      simp at h
  | succ fuel ih =>
      intro rest h
      rw [sendChunksGo]
      split_ifs with hc
      · simp only [List.flatten_cons]
        have hlen : (rest.drop CHUNK_SIZE).length < fuel * CHUNK_SIZE := by
          rw [List.length_drop]
          have hC : CHUNK_SIZE = 16384 := rfl
          rw [hC] at hc h ⊢
          omega
        rw [ih _ hlen]
        exact List.take_append_drop _ _
      · simp

theorem sendChunks_flatten (file : List Nat) : (sendChunks file).flatten = file := by
  apply sendChunksGo_flatten
  rw [show CHUNK_SIZE = 16384 from rfl]
  omega

theorem sendChunksGo_map_length (fuel : Nat) : ∀ rest : List Nat,
    (sendChunksGo fuel rest).map List.length = frameSizesGo fuel rest.length := by
  induction fuel with
  | zero => intro rest; rfl
  | succ fuel ih =>
      intro rest
      rw [sendChunksGo, frameSizesGo]
      split_ifs with hc
      · simp only [List.map_cons]
        rw [ih (rest.drop CHUNK_SIZE)]
        simp only [List.length_take, List.length_drop]
        rw [min_eq_left (le_of_lt hc)]
      · simp

theorem sendChunks_map_length (file : List Nat) :
    (sendChunks file).map List.length = frameSizes file.length := by
  rw [sendChunks, sendChunksGo_map_length, frameSizes]

theorem frameSizesGo_inner (fuel : Nat) : ∀ n i, i + 1 < (frameSizesGo fuel n).length →
    (frameSizesGo fuel n).getD i 0 = CHUNK_SIZE := by
  induction fuel with
  | zero => intro n i h; simp [frameSizesGo] at h
  | succ fuel ih =>
      intro n i h
      rw [frameSizesGo] at h ⊢
      split_ifs at h ⊢ with hc
      · cases i with
        | zero => rfl
        | succ j =>
            simp only [List.length_cons] at h
            exact ih (n - CHUNK_SIZE) j (by omega)
      · simp at h

theorem frameSizesGo_le (fuel : Nat) : ∀ n i, i < (frameSizesGo fuel n).length →
    (frameSizesGo fuel n).getD i 0 ≤ CHUNK_SIZE := by
  induction fuel with
  | zero => intro n i h; simp [frameSizesGo] at h
  | succ fuel ih =>
      intro n i h
      rw [frameSizesGo] at h ⊢
      split_ifs at h ⊢ with hc
      · cases i with
        | zero => simp
        | succ j =>
            simp only [List.length_cons] at h
            exact ih (n - CHUNK_SIZE) j (by omega)
      · cases i with
        | zero => simp; omega
        | succ j => simp at h

theorem frameSizesGo_succ (fuel n : Nat) :
    frameSizesGo (fuel + 1) n =
      if CHUNK_SIZE < n then CHUNK_SIZE :: frameSizesGo fuel (n - CHUNK_SIZE) else [n] := by
  rw [frameSizesGo]

theorem frameSizes_40000 : frameSizes 40000 = [16384, 16384, 7232] := by
  rw [frameSizes]
  rw [show (40000 + 1 : Nat) = 40000 + 1 from rfl, frameSizesGo_succ]
  rw [if_pos (by norm_num [CHUNK_SIZE])]
  rw [show (40000 - CHUNK_SIZE : Nat) = 23616 from by norm_num [CHUNK_SIZE]]
  rw [show (40000 : Nat) = 39999 + 1 from by norm_num, frameSizesGo_succ]
  rw [if_pos (by norm_num [CHUNK_SIZE])]
  rw [show (23616 - CHUNK_SIZE : Nat) = 7232 from by norm_num [CHUNK_SIZE]]
  rw [show (39999 : Nat) = 39998 + 1 from by norm_num, frameSizesGo_succ]
  rw [if_neg (by norm_num [CHUNK_SIZE])]
  rw [show (CHUNK_SIZE : Nat) = 16384 from rfl]

/-- C2: for every file, the sender reads and sends frames of exactly 16384
bytes except a short final frame, in file order; concatenating all sent
frames in send order reconstructs exactly the original bytes; the frames are
followed by exactly one control message; and a 40000-byte file produces
exactly 3 frames of sizes 16384, 16384, 7232. -/
theorem c2_chunking_fidelity (file : List Nat) :
    (sendChunks file).flatten = file ∧
    (sendChunks file).map List.length = frameSizes file.length ∧
    (∀ i, i + 1 < (frameSizes file.length).length →
      (frameSizes file.length).getD i 0 = CHUNK_SIZE) ∧
    (∀ i, i < (frameSizes file.length).length →
      (frameSizes file.length).getD i 0 ≤ CHUNK_SIZE) ∧
    (senderMessages file).length = (sendChunks file).length + 1 ∧
    (senderMessages file).getLast? = some (Msg.text doneMsgText) ∧
    frameSizes 40000 = [16384, 16384, 7232] := by
  refine ⟨sendChunks_flatten file, sendChunks_map_length file,
    fun i h => frameSizesGo_inner _ _ i h,
    fun i h => frameSizesGo_le _ _ i h, ?_, ?_, frameSizes_40000⟩
  · simp [senderMessages]
  · simp [senderMessages]

/-- Witness for C2 at the 40000-byte scenario file. -/
theorem c2_chunking_fidelity_witness :
    (frameSizes (List.replicate 40000 (0 : Nat)).length).getD 0 0 = CHUNK_SIZE ∧
    (frameSizes (List.replicate 40000 (0 : Nat)).length).getD 2 0 ≤ CHUNK_SIZE := by
  have hlen : (List.replicate 40000 (0 : Nat)).length = 40000 := by
    rw [List.length_replicate]
  constructor
  · exact (c2_chunking_fidelity (List.replicate 40000 0)).2.2.1 0
      (by rw [hlen, frameSizes_40000]; norm_num)
  · exact (c2_chunking_fidelity (List.replicate 40000 0)).2.2.2.1 2
      (by rw [hlen, frameSizes_40000]; norm_num)

/-! ### Receiver fold lemmas -/

theorem onMessage_data_fields (cl : RecvClosure) (s : AppSt) (b : List Nat) :
    (channelOnMessage cl s (.data b)).appState = s.appState ∧
    (channelOnMessage cl s (.data b)).receivedFileChunks = s.receivedFileChunks ++ [b] ∧
    (channelOnMessage cl s (.data b)).transferredBytes = cl.tb0 + b.length ∧
    (channelOnMessage cl s (.data b)).downloadUrl = s.downloadUrl ∧
    (channelOnMessage cl s (.data b)).error = s.error ∧
    (channelOnMessage cl s (.data b)).localStore = s.localStore ∧
    (channelOnMessage cl s (.data b)).receivedFileInfo = s.receivedFileInfo := by
  cases hinfo : cl.info0 <;> simp [channelOnMessage, hinfo]

theorem isDoneText_done : isDoneText doneMsgText = true := by
  rw [isDoneText,
    show jsonParse doneMsgText = some (.obj [("type", .str "done")]) from
      jsonParse_jChars _ (by decide)]
  rfl

theorem onMessage_done (cl : RecvClosure) (s : AppSt) :
    channelOnMessage cl s (.text doneMsgText) =
      { s with downloadUrl := some cl.chunks0.flatten,
               appState := .transferComplete } := by
  simp [channelOnMessage, isDoneText_done]

theorem onMessage_text_not (cl : RecvClosure) (s : AppSt) (str : String)
    (h : isDoneText str = false) :
    channelOnMessage cl s (.text str) = s := by
  simp [channelOnMessage, h]

theorem fold_data_fields (cl : RecvClosure) (frames : List (List Nat)) : ∀ s : AppSt,
    (((frames.map Msg.data).foldl (channelOnMessage cl) s).appState = s.appState ∧
     ((frames.map Msg.data).foldl (channelOnMessage cl) s).receivedFileChunks =
       s.receivedFileChunks ++ frames ∧
     ((frames.map Msg.data).foldl (channelOnMessage cl) s).downloadUrl = s.downloadUrl) := by
  induction frames with
  | nil => intro s; simp
  | cons b frames ih =>
      intro s
      simp only [List.map_cons, List.foldl_cons]
      obtain ⟨h1, h2, -, h4, -, -, -⟩ := onMessage_data_fields cl s b
      obtain ⟨g1, g2, g4⟩ := ih (channelOnMessage cl s (.data b))
      refine ⟨by rw [g1, h1], ?_, by rw [g4, h4]⟩
      rw [g2, h2]
      simp

/-- The byte counter after any nonempty run of binary frames is the stale
closure counter plus the LAST frame's length alone: every frame overwrites
the counter with its own contribution. -/
theorem fold_data_bytes (cl : RecvClosure) (frames : List (List Nat)) (b : List Nat) :
    ∀ s : AppSt,
    ((((frames ++ [b]).map Msg.data).foldl (channelOnMessage cl) s).transferredBytes =
      cl.tb0 + b.length) := by
  induction frames with
  | nil =>
      intro s
      exact (onMessage_data_fields cl s b).2.2.1
  | cons c cs ih =>
      intro s
      simp only [List.cons_append, List.map_cons, List.foldl_cons]
      exact ih _

theorem senderMessages_take (file : List Nat) (k : Nat)
    (hk : k ≤ (sendChunks file).length) :
    (senderMessages file).take k = ((sendChunks file).take k).map Msg.data := by
  rw [senderMessages, List.take_append_of_le_length (by simpa using hk), List.map_take]

/-- C3 counterexample: for the 3-byte file, the receiver completes on the
`done` message, but the finalized blob is built from the handler closure's
frozen empty chunk list — the exposed output is empty, not the file, even
though the live state accumulated the frame. -/
theorem c3_counterexample :
    ((senderMessages [1, 2, 3]).foldl (channelOnMessage installClosure)
      { initState with appState := .transferring }).appState = .transferComplete ∧
    ((senderMessages [1, 2, 3]).foldl (channelOnMessage installClosure)
      { initState with appState := .transferring }).downloadUrl = some [] ∧
    ((senderMessages [1, 2, 3]).foldl (channelOnMessage installClosure)
      { initState with appState := .transferring }).receivedFileChunks = [[1, 2, 3]] ∧
    some ([] : List Nat) ≠ some [1, 2, 3] := by
  have key : (senderMessages [1, 2, 3]).foldl (channelOnMessage installClosure)
      { initState with appState := .transferring } =
      channelOnMessage installClosure
        (channelOnMessage installClosure { initState with appState := .transferring }
          (.data [1, 2, 3])) (.text doneMsgText) := by
    rw [show senderMessages [1, 2, 3] = [Msg.data [1, 2, 3], Msg.text doneMsgText] from rfl]
    rfl
  rw [key, onMessage_done]
  exact ⟨rfl, rfl, rfl, by simp⟩

/-- C3 (amended): completion is indeed gated on the `done` control message —
every state reached after only binary frames is still `transferring`, even
when the byte count equals the file size — but at completion the finalized
blob is built from the handler closure's frozen empty chunk list: the
exposed output is the empty byte sequence, not the file, although the live
state accumulated every received frame in arrival order. -/
theorem c3_completion_gating (file : List Nat) (s0 : AppSt)
    (h1 : s0.appState = .transferring) :
    (∀ k, k ≤ (sendChunks file).length →
      (((senderMessages file).take k).foldl (channelOnMessage installClosure) s0).appState =
        .transferring) ∧
    ((senderMessages file).foldl (channelOnMessage installClosure) s0).appState =
      .transferComplete ∧
    ((senderMessages file).foldl (channelOnMessage installClosure) s0).downloadUrl =
      some [] ∧
    ((senderMessages file).foldl (channelOnMessage installClosure) s0).receivedFileChunks =
      s0.receivedFileChunks ++ sendChunks file := by
  obtain ⟨-, hC, -⟩ := fold_data_fields installClosure (sendChunks file) s0
  have hfull : (senderMessages file).foldl (channelOnMessage installClosure) s0 =
      channelOnMessage installClosure
        (((sendChunks file).map Msg.data).foldl (channelOnMessage installClosure) s0)
        (.text doneMsgText) := by
    rw [senderMessages, List.foldl_append]
    rfl
  refine ⟨?_, ?_, ?_, ?_⟩
  · intro k hk
    rw [senderMessages_take file k hk]
    obtain ⟨g1, -, -⟩ := fold_data_fields installClosure ((sendChunks file).take k) s0
    rw [g1, h1]
  · rw [hfull, onMessage_done]
  · rw [hfull, onMessage_done]
    simp [installClosure]
  · rw [hfull, onMessage_done]
    simp only
    exact hC

/-- Witness for C3 on a concrete 3-byte transfer. -/
theorem c3_completion_gating_witness :
    ({ initState with appState := .transferring } : AppSt).appState = .transferring ∧
    (((senderMessages [1, 2, 3]).take 0).foldl (channelOnMessage installClosure)
      { initState with appState := .transferring }).appState = .transferring ∧
    ((senderMessages [1, 2, 3]).foldl (channelOnMessage installClosure)
      { initState with appState := .transferring }).downloadUrl = some [] := by
  obtain ⟨hg, -, hd, -⟩ :=
    c3_completion_gating [1, 2, 3] { initState with appState := .transferring } rfl
  exact ⟨rfl, hg 0 (Nat.zero_le _), hd⟩

/-! ### Byte counters -/

theorem sender_fold_bytes (fsize : Nat) (chunks : List (List Nat)) : ∀ s : AppSt,
    (chunks.foldl (senderStep fsize) s).transferredBytes =
      s.transferredBytes + (chunks.map List.length).sum := by
  induction chunks with
  | nil => intro s; simp
  | cons b chunks ih =>
      intro s
      simp only [List.foldl_cons, List.map_cons, List.sum_cons]
      rw [ih]
      simp only [senderStep]
      omega

theorem sum_take_le (l : List Nat) (k : Nat) : (l.take k).sum ≤ l.sum := by
  conv_rhs => rw [← List.take_append_drop k l]
  rw [List.sum_append]
  omega

theorem sizes_sum (file : List Nat) :
    ((sendChunks file).map List.length).sum = file.length := by
  rw [← List.length_flatten, sendChunks_flatten]

/-- The receiver's byte counter after the first `k + 1` frames: the stale
closure counter plus the length of frame `k` alone. -/
theorem recv_bytes_take (cl : RecvClosure) (file : List Nat) (s0 : AppSt)
    (k : Nat) (hk : k < (sendChunks file).length) :
    (((senderMessages file).take (k + 1)).foldl (channelOnMessage cl) s0).transferredBytes =
      cl.tb0 + ((sendChunks file).map List.length).getD k 0 := by
  have htake : (sendChunks file).take (k + 1) =
      (sendChunks file).take k ++ [(sendChunks file).get ⟨k, hk⟩] := by
    rw [List.take_succ, List.getElem?_eq_getElem hk]
    rfl
  rw [senderMessages_take file (k + 1) (by omega), htake, fold_data_bytes]
  congr 1
  rw [List.getD_eq_getElem _ _ (by rw [List.length_map]; exact hk)]
  simp

/-- C8 counterexample: for the 40000-byte file the receiver's counter reads
16384 after two frames and 7232 after three — each frame overwrites the
counter with its own length computed from the stale closure zero, so the
counter decreases at the final short frame and does not advance by the
frame's length. -/
theorem c8_counterexample :
    (((senderMessages (List.replicate 40000 0)).take 2).foldl
        (channelOnMessage installClosure) initState).transferredBytes = 16384 ∧
    (((senderMessages (List.replicate 40000 0)).take 3).foldl
        (channelOnMessage installClosure) initState).transferredBytes = 7232 ∧
    ¬(16384 ≤ 7232) ∧ (7232 : Nat) ≠ 16384 + 7232 := by
  have hlen : (List.replicate 40000 (0 : Nat)).length = 40000 := by
    rw [List.length_replicate]
  have hmap : (sendChunks (List.replicate 40000 0)).map List.length =
      [16384, 16384, 7232] := by
    rw [sendChunks_map_length, hlen, frameSizes_40000]
  have hn : (sendChunks (List.replicate 40000 (0 : Nat))).length = 3 := by
    have h := congrArg List.length hmap
    rw [List.length_map] at h
    exact h.trans rfl
  refine ⟨?_, ?_, by norm_num, by norm_num⟩
  · have h := recv_bytes_take installClosure (List.replicate 40000 0) initState 1
      (by rw [hn]; norm_num)
    rw [hmap] at h
    exact h.trans rfl
  · have h := recv_bytes_take installClosure (List.replicate 40000 0) initState 2
      (by rw [hn]; norm_num)
    rw [hmap] at h
    exact h.trans rfl

/-- C8 (amended): the SENDER's byte counter starts at zero, advances by
exactly each frame's byte length, is non-decreasing and never exceeds the
file size; the RECEIVER's counter instead is overwritten on every frame with
that frame's own length (the handler adds `data.byteLength` to the closure's
frozen zero), so while it never exceeds the file size it is not cumulative
and not monotone. -/
theorem c8_progress_monotonic (file : List Nat) (s0 : AppSt)
    (h0 : s0.transferredBytes = 0) :
    (∀ j, (((sendChunks file).take j).foldl (senderStep file.length) s0).transferredBytes ≤
      file.length) ∧
    (∀ j, (((sendChunks file).take j).foldl (senderStep file.length) s0).transferredBytes ≤
      (((sendChunks file).take (j + 1)).foldl (senderStep file.length) s0).transferredBytes) ∧
    (∀ j, j < (sendChunks file).length →
      (((sendChunks file).take (j + 1)).foldl (senderStep file.length) s0).transferredBytes =
        (((sendChunks file).take j).foldl (senderStep file.length) s0).transferredBytes +
          ((sendChunks file).map List.length).getD j 0) ∧
    (∀ k, k < (sendChunks file).length →
      (((senderMessages file).take (k + 1)).foldl
          (channelOnMessage installClosure) s0).transferredBytes =
        ((sendChunks file).map List.length).getD k 0) ∧
    (∀ k, k < (sendChunks file).length →
      (((senderMessages file).take (k + 1)).foldl
          (channelOnMessage installClosure) s0).transferredBytes ≤ file.length) := by
  have hsizes := sizes_sum file
  have hmap : ∀ k, ((sendChunks file).take k).map List.length =
      ((sendChunks file).map List.length).take k := by
    intro k
    rw [List.map_take]
  have hgd : ∀ k, k < (sendChunks file).length →
      ((sendChunks file).map List.length).getD k 0 ≤ file.length := by
    intro k hk
    have hk2 : k < ((sendChunks file).map List.length).length := by
      rw [List.length_map]
      exact hk
    rw [List.getD_eq_getElem _ _ hk2, ← hsizes]
    exact List.single_le_sum (fun x _ => Nat.zero_le x) _ (List.getElem_mem hk2)
  refine ⟨?_, ?_, ?_, ?_, ?_⟩
  · intro j
    rw [sender_fold_bytes, h0, Nat.zero_add, hmap]
    calc (((sendChunks file).map List.length).take j).sum
        ≤ ((sendChunks file).map List.length).sum := sum_take_le _ _
      _ = file.length := hsizes
  · intro j
    rw [sender_fold_bytes, sender_fold_bytes, h0, Nat.zero_add, Nat.zero_add, hmap, hmap]
    by_cases hj : j < ((sendChunks file).map List.length).length
    · rw [List.sum_take_succ _ _ hj]
      omega
    · rw [List.take_of_length_le (by omega), List.take_of_length_le (by omega)]
  · intro j hj
    have hj2 : j < ((sendChunks file).map List.length).length := by
      rw [List.length_map]
      exact hj
    rw [sender_fold_bytes, sender_fold_bytes, h0, Nat.zero_add, Nat.zero_add, hmap, hmap,
      List.sum_take_succ _ _ hj2, List.getD_eq_getElem _ _ hj2]
  · intro k hk
    rw [recv_bytes_take installClosure file s0 k hk]
    simp [installClosure]
  · intro k hk
    rw [recv_bytes_take installClosure file s0 k hk]
    simpa [installClosure] using hgd k hk

/-- Witness for C8 on a concrete 3-byte transfer. -/
theorem c8_progress_monotonic_witness :
    (((sendChunks [1, 2, 3]).take 1).foldl (senderStep 3) initState).transferredBytes =
      (((sendChunks [1, 2, 3]).take 0).foldl (senderStep 3) initState).transferredBytes +
        ((sendChunks [1, 2, 3]).map List.length).getD 0 0 ∧
    (((senderMessages [1, 2, 3]).take 1).foldl
        (channelOnMessage installClosure) initState).transferredBytes =
      ((sendChunks [1, 2, 3]).map List.length).getD 0 0 := by
  constructor
  · have h := (c8_progress_monotonic [1, 2, 3] initState rfl).2.2.1 0 (by decide)
    simpa using h
  · exact (c8_progress_monotonic [1, 2, 3] initState rfl).2.2.2.1 0 (by decide)

/-- C10 counterexample: even with zero-size metadata present in the LIVE
state, the receiver's progress guard reads the handler closure's frozen null
metadata, so an empty inbound frame leaves the progress untouched at 0 — the
receiver never computes round(100 * (0 / 0)). -/
theorem c10_counterexample :
    (channelOnMessage installClosure
      { initState with
          appState := .transferring,
          receivedFileInfo := some (some (.str "empty.bin"), some (.num 0)) }
      (.data [])).progress = JSNum.num 0 ∧
    JSNum.num 0 ≠ JSNum.nan := by
  exact ⟨rfl, by decide⟩

/-- C10 (amended): for a declared file size of exactly zero the SENDER's
unguarded division computes round(100 * (0 / 0)) = NaN after its single
empty-frame read; the RECEIVER never performs the division at all — its
progress guard reads the handler closure's frozen null metadata, so no
inbound message ever changes the receiver's progress. -/
theorem c10_zero_size_nan :
    sendChunks [] = [[]] ∧
    (senderRun [] initState).progress = JSNum.nan ∧
    (∀ (s : AppSt) (m : Msg),
      (channelOnMessage installClosure s m).progress = s.progress) ∧
    JSNum.nan ≠ JSNum.num 0 ∧ JSNum.nan ≠ JSNum.num 100 := by
  refine ⟨rfl, ?_, ?_, by decide, by decide⟩
  · rw [senderRun, show sendChunks [] = [[]] from rfl]
    simp [senderStep, initState, progressOf, jdiv, jmul, jround]
  · intro s m
    cases m with
    | text str =>
        by_cases h : isDoneText str
        · simp [channelOnMessage, h]
        · simp [channelOnMessage, h]
    | data b => simp [channelOnMessage, installClosure]

/-- C7 counterexample: resetting from a state with a stored pending payload
leaves the durable local slot populated — `resetState` never removes the
`localStorage` entry — refuting the claim that reset clears the
PendingPayload. -/
theorem c7_counterexample :
    (resetState
      { initState with
          appState := .awaitingPassword,
          localStore := some "pending" }).localStore = some "pending" ∧
    (resetState
      { initState with
          appState := .awaitingPassword,
          localStore := some "pending" }).appState = .idle :=
  ⟨rfl, rfl⟩

/-- C7 (amended): from every state, the user reset action returns the machine
to idle, tears down the transport and channel, clears the URL fragment, and
discards all session data — selected file, received metadata, received
frames, counters, offer token, error message — but leaves the stored
PendingPayload in the durable local holding slot untouched. -/
theorem c7_reset_amended (s : AppSt) :
    (resetState s).appState = .idle ∧
    (resetState s).file = none ∧
    (resetState s).password = "" ∧
    (resetState s).error = none ∧
    (resetState s).offer = none ∧
    (resetState s).progress = .num 0 ∧
    (resetState s).transferredBytes = 0 ∧
    (resetState s).receivedFileInfo = none ∧
    (resetState s).receivedFileChunks = [] ∧
    (resetState s).downloadUrl = none ∧
    (resetState s).locationHash = "" ∧
    (resetState s).pcOpen = false ∧
    (resetState s).dcOpen = false ∧
    (resetState s).localStore = s.localStore :=
  ⟨rfl, rfl, rfl, rfl, rfl, rfl, rfl, rfl, rfl, rfl, rfl, rfl, rfl, rfl⟩

/-- A concrete valid payload used by the counterexamples. -/
def samplePayload : OfferPayload := ⟨⟨"offer", "v=0"⟩, "recipe.txt", 5, none⟩

/-- C9 counterexample: when accepting the remote descriptor throws, the error
state is entered with the received-file metadata already stored and the peer
connection created — the in-progress operation's partial effects are not
discarded, refuting the claim. -/
theorem c9_counterexample :
    (processOffer (payloadJson samplePayload) false initState).appState = .error ∧
    (processOffer (payloadJson samplePayload) false initState).receivedFileInfo =
      some (jget (payloadJson samplePayload) "fileName",
        jget (payloadJson samplePayload) "fileSize") ∧
    (processOffer (payloadJson samplePayload) false initState).receivedFileInfo ≠ none ∧
    jget (payloadJson samplePayload) "fileName" = some (.str "recipe.txt") := by
  have hval : (processOffer (payloadJson samplePayload) false initState).receivedFileInfo =
      some (jget (payloadJson samplePayload) "fileName",
        jget (payloadJson samplePayload) "fileSize") := rfl
  refine ⟨rfl, hval, by rw [hval]; simp, ?_⟩
  simp +decide [payloadJson, samplePayload, jget, List.lookup]

/-- C9 (amended): when accepting the remote descriptor fails, the machine
transitions to the error state with its message set, but the partial effects
of the in-progress operation — the stored received-file metadata and the
created peer connection — are retained rather than discarded. -/
theorem c9_error_keeps_partial (j : Json) (s : AppSt) :
    processOffer j false s =
      { s with
          receivedFileInfo := some (jget j "fileName", jget j "fileSize"),
          pcOpen := true,
          error := some "Failed to process transmission. The link might be invalid.",
          appState := .error } := rfl

/-! ### C6: the password gate -/

/-- The `passwordHash` property of a serialized payload carrying a digest. -/
theorem jget_payloadJson_hash (p : OfferPayload) (d : String)
    (h : p.passwordHash = some d) :
    jget (payloadJson p) "passwordHash" = some (.str d) := by
  simp +decide [payloadJson, jget, List.lookup, h]

/-- C6: in `awaitingPassword` with the pending payload stored, submitting a
secret whose digest mismatches the stored digest only surfaces
`Incorrect secret code.` — the application state and the stored pending
payload are untouched — while submitting the matching secret removes the
stored payload and proceeds to `generatingAnswer`. -/
theorem c6_password_gate (hashFn : String → String) (p : OfferPayload) (d : String)
    (wrong pass : String) (s : AppSt)
    (hd : p.passwordHash = some d)
    (hA : s.appState = .awaitingPassword)
    (hst : s.localStore = some (String.mk (jChars (payloadJson p))))
    (hmiss : hashFn wrong ≠ d) (hmatch : hashFn pass = d) :
    handlePasswordSubmit hashFn wrong true s =
      { s with error := some "Incorrect secret code." } ∧
    (handlePasswordSubmit hashFn wrong true s).appState = .awaitingPassword ∧
    (handlePasswordSubmit hashFn wrong true s).localStore = s.localStore ∧
    (handlePasswordSubmit hashFn pass true s).localStore = none ∧
    (handlePasswordSubmit hashFn pass true s).appState = .generatingAnswer := by
  have hparse : jsonParse (String.mk (jChars (payloadJson p))) = some (payloadJson p) :=
    jsonParse_jChars _ (canonJ_payloadJson p)
  have hget := jget_payloadJson_hash p d hd
  have hwrong : handlePasswordSubmit hashFn wrong true s =
      { s with error := some "Incorrect secret code." } := by
    simp only [handlePasswordSubmit, hst, hparse, hget, if_neg hmiss]
  have hok : handlePasswordSubmit hashFn pass true s =
      processOffer (payloadJson p) true { s with localStore := none } := by
    simp only [handlePasswordSubmit, hst, hparse, hget, if_pos hmatch]
  refine ⟨hwrong, by rw [hwrong]; exact hA, by rw [hwrong], ?_, ?_⟩
  · rw [hok]
    simp [processOffer]
  · rw [hok]
    simp [processOffer]

/-- Scenario B payload: the sender set the secret `swordfish`; with the
identity digest function, the carried digest is the secret itself. -/
def gatedPayload : OfferPayload := ⟨⟨"offer", "v=0"⟩, "recipe.txt", 5, some "swordfish"⟩

/-- The responder state awaiting the secret, with the pending payload stored. -/
def gatedState : AppSt :=
  { initState with
      appState := .awaitingPassword
      localStore := some (String.mk (jChars (payloadJson gatedPayload))) }

/-- Witness for C6 at Scenario B: entering `wrong` leaves `awaitingPassword`
with the payload stored; entering `swordfish` proceeds to `generatingAnswer`. -/
theorem c6_password_gate_witness :
    gatedPayload.passwordHash = some "swordfish" ∧
    (fun x => x) "wrong" ≠ "swordfish" ∧
    (handlePasswordSubmit (fun x => x) "wrong" true gatedState).appState =
      .awaitingPassword ∧
    (handlePasswordSubmit (fun x => x) "wrong" true gatedState).localStore =
      gatedState.localStore ∧
    (handlePasswordSubmit (fun x => x) "swordfish" true gatedState).localStore = none ∧
    (handlePasswordSubmit (fun x => x) "swordfish" true gatedState).appState =
      .generatingAnswer := by
  obtain ⟨-, h2, h3, h4, h5⟩ :=
    c6_password_gate (fun x => x) gatedPayload "swordfish" "wrong" "swordfish"
      gatedState rfl rfl rfl (by decide) rfl
  exact ⟨rfl, by decide, h2, h3, h4, h5⟩

/-! ### C5: inbound message classification -/

/-- C5 counterexample: the text message `hello` fails structured decode, yet
the handler does NOT treat it as a binary data frame — nothing is appended
and the counter does not move; and the byte counter does not ADVANCE on
binary frames either: after frames of 3 and then 2 bytes it reads 2 (the
last frame's length alone, added to the closure's frozen zero), not 5. -/
theorem c5_counterexample :
    isDoneText "hello" = false ∧
    channelOnMessage installClosure initState (.text "hello") = initState ∧
    (channelOnMessage installClosure
        (channelOnMessage installClosure initState (.data [1, 2, 3]))
        (.data [4, 5])).transferredBytes = 2 ∧
    (2 : Nat) ≠ 3 + 2 := by
  exact ⟨rfl, rfl, rfl, by decide⟩

/-- C5 (amended): a binary frame is appended to the live received sequence,
but the byte counter is overwritten with the closure's frozen counter plus
that frame's own length; a text message is the completion control message
exactly when structured decode succeeds with the `done` tag (finalizing the
blob from the closure's frozen chunk list), and every other text message —
undecodable or lacking the tag — is silently ignored (not treated as a
binary frame, and never an error). -/
theorem c5_classification (cl : RecvClosure) (s : AppSt) (b : List Nat) (str : String) :
    (channelOnMessage cl s (.data b)).receivedFileChunks = s.receivedFileChunks ++ [b] ∧
    (channelOnMessage cl s (.data b)).transferredBytes = cl.tb0 + b.length ∧
    (channelOnMessage cl s (.data b)).appState = s.appState ∧
    (channelOnMessage cl s (.data b)).error = s.error ∧
    (isDoneText str = false → channelOnMessage cl s (.text str) = s) ∧
    (isDoneText str = true → channelOnMessage cl s (.text str) =
      { s with downloadUrl := some cl.chunks0.flatten,
               appState := .transferComplete }) := by
  obtain ⟨h1, h2, h3, -, h5, -⟩ := onMessage_data_fields cl s b
  refine ⟨h2, h3, h1, h5, ?_, ?_⟩
  · intro h
    simp [channelOnMessage, h]
  · intro h
    simp [channelOnMessage, h]

/-- Witness for C5: a concrete 2-byte frame is appended and sets the counter
from the frozen zero; the undecodable text `hello` is ignored; the `done`
control message completes with the frozen empty chunk list. -/
theorem c5_classification_witness :
    isDoneText "hello" = false ∧
    isDoneText doneMsgText = true ∧
    (channelOnMessage installClosure initState (.data [7, 8])).receivedFileChunks =
      [] ++ [[7, 8]] ∧
    (channelOnMessage installClosure initState (.data [7, 8])).transferredBytes =
      installClosure.tb0 + 2 ∧
    channelOnMessage installClosure initState (.text "hello") = initState ∧
    channelOnMessage installClosure initState (.text doneMsgText) =
      { initState with downloadUrl := some installClosure.chunks0.flatten,
                       appState := .transferComplete } := by
  obtain ⟨g1, g2, -, -, g5, -⟩ := c5_classification installClosure initState [7, 8] "hello"
  obtain ⟨-, -, -, -, -, h6⟩ := c5_classification installClosure initState [7, 8] doneMsgText
  exact ⟨rfl, isDoneText_done, g1, g2, g5 rfl, h6 isDoneText_done⟩

/-! ### C4: rejection of malformed tokens -/

/-- C4 counterexample: the token `e30=` is `btoa` of the two-character string
holding an empty JSON object — a decoded value missing every required field
(`sdp`, `fileName`, `fileSize`).  Decoding does NOT reject it: the
invalid-link classification is never raised for it; the undefined fields are
stored as the received metadata and the connection is created, and the run
fails only when the transport rejects the undefined session description
(`new RTCSessionDescription(undefined)` throws, so the transport deterministically
fails at this input), surfacing the transport error instead. -/
theorem c4_counterexample :
    decodeToken "e30=" = some (.obj []) ∧
    payloadOfJson (.obj []) = none ∧
    (handleHashEffect "e30=" false initState).error =
      some "Failed to process transmission. The link might be invalid." ∧
    (handleHashEffect "e30=" false initState).error ≠
      some "Invalid transmission link." ∧
    (handleHashEffect "e30=" false initState).receivedFileInfo = some (none, none) ∧
    (handleHashEffect "e30=" false initState).pcOpen = true := by
  exact ⟨rfl, rfl, rfl, by decide, rfl, rfl⟩

/-- C4 (amended): a token whose base64 transform or JSON structure is
malformed is rejected on both paths — the URL fragment surfaces
`Invalid transmission link.` and the pasted counter-signal surfaces
`Invalid counter-signal format. Please try again.` — but a well-formed token
decoding to a value missing required payload fields is NOT rejected: no
field validation is performed, the decoded value is handed to the offer
processing as-is, its undefined fields are stored as the received metadata,
and when the transport then rejects the missing session description the
error surfaced is the transport one, with the partial effects retained. -/
theorem c4_reject_malformed (hash ansStr bad : String) (s : AppSt) (j : Json)
    (hne : hash ≠ "") (hidle : s.appState = .idle)
    (hdec : decodeToken hash = none) (hdec2 : decodeToken ansStr = none)
    (hbadne : bad ≠ "") (hbaddec : decodeToken bad = some j)
    (hnopw : jTruthy (jget j "passwordHash") = false) :
    (∀ t : Bool, handleHashEffect hash t s =
      { s with error := some "Invalid transmission link.", appState := .error }) ∧
    (∀ t : Bool, handleConnect ansStr t s =
      { s with error := some "Invalid counter-signal format. Please try again." }) ∧
    (∀ t : Bool, handleHashEffect bad t s =
      processOffer j t { s with appState := .processingOffer }) ∧
    (handleHashEffect bad false s).receivedFileInfo =
      some (jget j "fileName", jget j "fileSize") ∧
    (handleHashEffect bad false s).appState = .error ∧
    (handleHashEffect bad false s).error =
      some "Failed to process transmission. The link might be invalid." := by
  have h3 : ∀ t : Bool, handleHashEffect bad t s =
      processOffer j t { s with appState := .processingOffer } := by
    intro t
    rw [handleHashEffect, if_pos ⟨hbadne, hidle⟩, hbaddec]
    simp only [hnopw, Bool.false_eq_true, if_false]
  refine ⟨?_, ?_, h3, ?_, ?_, ?_⟩
  · intro t
    rw [handleHashEffect, if_pos ⟨hne, hidle⟩, hdec]
  · intro t
    rw [handleConnect.eq_def, hdec2]
  · rw [h3 false]
    simp [processOffer]
  · rw [h3 false]
    simp [processOffer]
  · rw [h3 false]
    simp [processOffer]

/-- Witness for C4 on the malformed token `%a` (not valid base64) and the
well-formed but fieldless token `e30=`. -/
theorem c4_reject_malformed_witness :
    decodeToken "%a" = none ∧
    decodeToken "e30=" = some (.obj []) ∧
    handleHashEffect "%a" true initState =
      { initState with error := some "Invalid transmission link.", appState := .error } ∧
    handleConnect "%a" true initState =
      { initState with
          error := some "Invalid counter-signal format. Please try again." } ∧
    (handleHashEffect "e30=" false initState).error =
      some "Failed to process transmission. The link might be invalid." := by
  obtain ⟨h1, h2, -, -, -, h6⟩ :=
    c4_reject_malformed "%a" "%a" "e30=" initState (.obj []) (by decide) rfl rfl rfl
      (by decide) rfl rfl
  exact ⟨rfl, rfl, h1 true, h2 true, h6⟩

/-! ### C1: the handshake round-trip -/

/-- A valid payload whose file name is the snowman character U+2603: a
session description, a file name, a non-negative size and no digest. -/
def snowmanPayload : OfferPayload := ⟨⟨"offer", "v=0"⟩, "☃", 1, none⟩

/-- C1 counterexample: `JSON.stringify` leaves the snowman unescaped, so the
serialized payload contains a character above U+00FF and `btoa` throws an
`InvalidCharacterError` — encoding fails outright, so no token exists whose
decode restores the payload, refuting the round-trip for every valid payload. -/
theorem c1_counterexample :
    encodePayload snowmanPayload = none ∧
    ¬∃ t, encodePayload snowmanPayload = some t ∧ decodePayload t = some snowmanPayload := by
  refine ⟨by decide, ?_⟩
  rintro ⟨t, ht, -⟩
  rw [show encodePayload snowmanPayload = none from by decide] at ht
  exact Option.noConfusion ht

/-- C1 (amended): the round-trip holds exactly on the payloads whose JSON
serialization stays within Latin-1 — there encoding succeeds and decoding the
produced token restores the payload. -/
theorem c1_roundtrip_amended (p : OfferPayload) (h : payloadLatin1 p = true) :
    ∃ t, encodePayload p = some t ∧ decodePayload t = some p :=
  roundtrip_latin1 p h

/-- Witness for C1 on a concrete Latin-1 payload. -/
theorem c1_roundtrip_amended_witness :
    payloadLatin1 samplePayload = true ∧
    ∃ t, encodePayload samplePayload = some t ∧ decodePayload t = some samplePayload :=
  ⟨by decide, c1_roundtrip_amended samplePayload (by decide)⟩
